import Mathlib

/-!
# Verification of the BlenderForge request/response bridging layer

This file is a shallow embedding, in Lean 4, of the core bridging layer of
the BlenderForge repository:

* the host-side command dispatcher `BlenderForgeServer._execute_command_internal`
  (`addon.py`), with its auth gate, per-call dispatch-table construction,
  feature-flag gating, handler error wrapping and unknown-command path;
* the host-side handler `BlenderForgeServer.get_scene_info` (`addon.py`);
* the client-side connection manager `BlenderConnection`
  (`src/blenderforge/server.py`): `connect`, `disconnect`,
  `receive_full_response`;
* the wire framing used by both sides: JSON-serialize with no delimiter,
  accumulate received bytes and repeatedly attempt to parse
  (`BlenderForgeServer._handle_client` and
  `BlenderConnection.receive_full_response`).

Handlers other than `get_scene_info` are calls into the Blender scene API and
third-party HTTP services; their bodies are outside the bridging core and are
abstracted by an explicit behaviour parameter.  Python `json.dumps`
(`ensure_ascii=True`, default separators) and `json.loads` are standard
library functions; they are modelled here by an executable JSON codec over
Unicode text in which JSON numbers are integers (the bridging claims do not
depend on float formatting).  Since `json.dumps` with `ensure_ascii=True`
emits pure ASCII, wire bytes are identified with their ASCII characters.
-/

namespace BlenderForge

/-! ## Python values

A model of the Python objects that flow through the dispatcher: command
parameters, handler results, and response payloads.  Python dicts are
modelled as association lists in insertion order (CPython dicts preserve
insertion order and have no duplicate keys). -/

inductive PyVal where
  | none : PyVal
  | bool (b : Bool) : PyVal
  | int (n : Int) : PyVal
  | rat (q : ℚ) : PyVal
  | str (s : String) : PyVal
  | list (xs : List PyVal) : PyVal
  | dict (entries : List (String × PyVal)) : PyVal

/-- Lookup of a key in a Python-dict value (`d["k"]` / `d.get("k")`). -/
def PyVal.lookup (k : String) : PyVal → Option PyVal
  | .dict entries => entries.lookup k
  | _ => Option.none

/-- One inbound Command: `{"type": ..., "params": {...}, "auth_token": ...}`.
`params` defaults to `{}` (`command.get("params", {})`); `auth_token` is
optional (`command.get("auth_token")`). -/
structure Command where
  type : String
  params : List (String × PyVal)
  authToken : Option String

/-- One Response, as produced by `_execute_command_internal`: either
`{"status": "success", "result": ...}` or `{"status": "error", "message": ...}`. -/
inductive Resp where
  | success (result : PyVal) : Resp
  | error (message : String) : Resp

/-- What a handler does when invoked: Python code either returns a value or
raises an exception (whose `str()` is `msg`). -/
inductive HandlerOutcome where
  | returns (result : PyVal) : HandlerOutcome
  | raises (msg : String) : HandlerOutcome

/-! ## Host-application state read by the dispatcher -/

/-- The four feature-enablement flags the dispatcher reads from
`bpy.context.scene` when building the handler table
(`blenderforge_use_polyhaven`, `_use_hyper3d`, `_use_sketchfab`,
`_use_hunyuan3d`). -/
structure FeatureFlags where
  usePolyhaven : Bool
  useHyper3d : Bool
  useSketchfab : Bool
  useHunyuan3d : Bool

/-- One object of the Blender scene, as read by `get_scene_info`:
`obj.name`, `obj.type`, `obj.location`.  Coordinates are modelled as
rationals. -/
structure SceneObject where
  name : String
  objType : String
  location : ℚ × ℚ × ℚ

/-- The Blender scene state read by `get_scene_info`:
`bpy.context.scene.name`, `bpy.context.scene.objects`,
`len(bpy.data.materials)`. -/
structure Scene where
  name : String
  objects : List SceneObject
  materialsCount : Nat

/-! ## The handler table (`_execute_command_internal`, addon.py lines 270-403)

The table is rebuilt inside every call to `_execute_command_internal`:
a base group that is always present, four asset-integration groups each
gated on its scene flag, and the AI and advanced groups which are merged
unconditionally. -/

def baseHandlerNames : List String :=
  ["get_scene_info", "get_object_info", "get_viewport_screenshot",
   "execute_code", "get_telemetry_consent", "get_polyhaven_status",
   "get_hyper3d_status", "get_sketchfab_status", "get_hunyuan3d_status"]

def polyhavenHandlerNames : List String :=
  ["get_polyhaven_categories", "search_polyhaven_assets",
   "download_polyhaven_asset", "set_texture"]

def hyper3dHandlerNames : List String :=
  ["create_rodin_job", "poll_rodin_job_status", "import_generated_asset"]

def sketchfabHandlerNames : List String :=
  ["search_sketchfab_models", "get_sketchfab_model_preview",
   "download_sketchfab_model"]

def hunyuan3dHandlerNames : List String :=
  ["create_hunyuan_job", "poll_hunyuan_job_status",
   "import_generated_asset_hunyuan"]

def aiHandlerNames : List String :=
  ["generate_material_text", "generate_material_image",
   "list_material_presets", "nlp_create", "nlp_modify",
   "analyze_scene_composition", "get_improvement_suggestions",
   "auto_optimize_lighting", "auto_rig", "auto_weight_paint",
   "add_ik_controls"]

def advancedHandlerNames : List String :=
  ["add_modifier", "configure_modifier", "apply_modifier",
   "boolean_operation", "create_array", "add_bevel", "mirror_object",
   "subdivide_smooth", "extrude_faces", "inset_faces", "loop_cut",
   "merge_vertices", "separate_by_loose", "join_objects",
   "insert_keyframe", "set_animation_range", "create_turntable",
   "add_shape_key", "animate_shape_key", "animate_path", "bake_animation",
   "add_rigid_body", "add_cloth_simulation", "add_collision",
   "create_force_field", "bake_physics", "add_particle_system",
   "create_camera", "set_active_camera", "configure_camera",
   "camera_look_at", "set_render_settings", "render_image",
   "render_animation", "setup_studio_render", "create_bezier_curve",
   "create_text_object", "curve_to_mesh", "create_pipe", "add_constraint",
   "create_empty", "parent_objects", "create_collection",
   "move_to_collection", "set_collection_visibility", "duplicate_linked",
   "purge_unused", "save_blend", "export_scene", "scatter_on_surface",
   "create_procedural_terrain"]

/-- The set of command types that resolve to a handler, rebuilt from the
current flags on every dispatch (`handlers = {...}; if flag:
handlers.update(...)`).  Group merging by `dict.update` preserves key
membership as list concatenation (no name appears in two groups). -/
def handlerNames (flags : FeatureFlags) : List String :=
  baseHandlerNames
    ++ (if flags.usePolyhaven then polyhavenHandlerNames else [])
    ++ (if flags.useHyper3d then hyper3dHandlerNames else [])
    ++ (if flags.useSketchfab then sketchfabHandlerNames else [])
    ++ (if flags.useHunyuan3d then hunyuan3dHandlerNames else [])
    ++ aiHandlerNames
    ++ advancedHandlerNames

/-! ## `get_scene_info` (addon.py lines 419-453) -/

/-- Python `round(x, 2)`: round half to even at two decimal places
(real-valued model of float rounding). -/
def round2 (x : ℚ) : ℚ :=
  let y := x * 100
  let f : Int := Int.floor y
  let n : Int :=
    if y - f < 1/2 then f
    else if y - f > 1/2 then f + 1
    else if Even f then f else f + 1
  (n : ℚ) / 100

/-- The per-object entry built by `get_scene_info`: name, type, and the
location with each coordinate rounded to 2 decimals. -/
def objectInfo (o : SceneObject) : PyVal :=
  .dict [("name", .str o.name), ("type", .str o.objType),
         ("location", .list [.rat (round2 o.location.1),
                             .rat (round2 o.location.2.1),
                             .rat (round2 o.location.2.2)])]

/-- `get_scene_info`: scene name, full object count, the first 10 objects
(the loop breaks at `i >= 10`), and the material count. -/
def getSceneInfo (scene : Scene) : PyVal :=
  .dict [("name", .str scene.name),
         ("object_count", .int scene.objects.length),
         ("objects", .list ((scene.objects.take 10).map objectInfo)),
         ("materials_count", .int scene.materialsCount)]

/-! ## `get_polyhaven_status` (addon.py lines 1316-1331)

`_execute_command_internal` returns this handler's result through a special
early-return branch before the handler table is built. -/

def polyhavenDisabledMessage : String :=
  "PolyHaven integration is currently disabled. To enable it:\n                            1. In the 3D Viewport, find the BlenderForge panel in the sidebar (press N if hidden)\n                            2. Check the 'Use assets from Poly Haven' checkbox\n                            3. Restart the connection to Claude"

def getPolyhavenStatus (flags : FeatureFlags) : PyVal :=
  if flags.usePolyhaven then
    .dict [("enabled", .bool true),
           ("message", .str "PolyHaven integration is enabled and ready to use.")]
  else
    .dict [("enabled", .bool false),
           ("message", .str polyhavenDisabledMessage)]

/-! ## The dispatcher (`_execute_command_internal`, addon.py lines 256-417) -/

/-- The auth gate (lines 261-264):
`if provided_token and provided_token != self.auth_token: reject`.
Python truthiness: a present but *empty* token is falsy, so it is not
checked. -/
def authRejected (serverToken : String) (provided : Option String) : Bool :=
  match provided with
  | Option.none => false
  | some tok => tok ≠ "" && tok ≠ serverToken

/-- Invoking the handler for `name` with keyword arguments `params`.
`get_scene_info` takes no parameters and is modelled concretely from the
source; every other handler body is Blender-API / HTTP code outside the
bridging core and is abstracted by `behave`. -/
def runHandler (scene : Scene)
    (behave : String → List (String × PyVal) → HandlerOutcome)
    (name : String) (params : List (String × PyVal)) : HandlerOutcome :=
  if name = "get_scene_info" then
    match params with
    | [] => .returns (getSceneInfo scene)
    | _ => behave name params
  else behave name params

/-- Result of one dispatch: the Response written back, plus the list of
handler invocations it performed (for the handler-side-effect claims). -/
structure ExecTrace where
  resp : Resp
  invoked : List String

/-- The post-auth part of `_execute_command_internal`: the
`get_polyhaven_status` early return, then the per-call table build and
lookup, the `try/except` around the handler call, and the
unknown-command error.  Total by construction: no exception escapes. -/
def dispatchCommand (flags : FeatureFlags) (scene : Scene)
    (behave : String → List (String × PyVal) → HandlerOutcome)
    (cmd : Command) : ExecTrace :=
  if cmd.type = "get_polyhaven_status" then
    { resp := .success (getPolyhavenStatus flags),
      invoked := ["get_polyhaven_status"] }
  else if (handlerNames flags).contains cmd.type then
    match runHandler scene behave cmd.type cmd.params with
    | .returns m => { resp := .success m, invoked := [cmd.type] }
    | .raises msg => { resp := .error msg, invoked := [cmd.type] }
  else
    { resp := .error ("Unknown command type: " ++ cmd.type), invoked := [] }

/-- `_execute_command_internal`: auth gate first, then dispatch.  The
feature flags are read inside this call, so the table reflects the flag
state at the moment of each dispatch. -/
def executeCommandInternal (flags : FeatureFlags) (scene : Scene)
    (serverToken : String)
    (behave : String → List (String × PyVal) → HandlerOutcome)
    (cmd : Command) : ExecTrace :=
  if authRejected serverToken cmd.authToken then
    { resp := .error "Invalid authentication token", invoked := [] }
  else
    dispatchCommand flags scene behave cmd

/-! ## Client-side connection manager (`BlenderConnection`, server.py)

`BlenderConnection` owns `sock` (the socket, `None` when disconnected) and
`auth_token` (cached from the environment at connect time).  Sockets are
modelled by numeric handles; the retry loop of `connect` is collapsed to
the outcome of the TCP connect, which is all the lifecycle claims need. -/

structure Conn where
  sock : Option Nat
  authToken : Option String

/-- `disconnect` (server.py lines 165-173): `if self.sock: close;
finally self.sock = None`.  Returns the new state and the list of socket
handles it closed.  Note: `self.auth_token` is not touched. -/
def Conn.disconnect (c : Conn) : Conn × List Nat :=
  match c.sock with
  | some s => ({ c with sock := Option.none }, [s])
  | Option.none => (c, [])

/-- `connect` (server.py lines 127-163): if a socket is already present,
return `True` at once; otherwise attempt a TCP connect and, on success,
store the fresh socket and re-read `auth_token` from the environment
(`os.getenv("BLENDERFORGE_AUTH_TOKEN")`).  On exhaustion of the retries
the socket stays `None` and the cached token is not reassigned. -/
def Conn.connect (c : Conn) (envToken : Option String) (freshSock : Nat)
    (tcpOk : Bool) : Conn × Bool :=
  match c.sock with
  | some _ => (c, true)
  | Option.none =>
      if tcpOk then ({ sock := some freshSock, authToken := envToken }, true)
      else (c, false)

/-! ## Wire JSON values

The values carried on the wire.  Python `json.dumps` with its defaults
(`ensure_ascii=True`, separators `", "` and `": "`) and `json.loads` are
modelled over `List Char`; since `ensure_ascii` output is pure ASCII, one
wire byte is one character.  JSON numbers are modelled as integers;
objects are association lists in insertion order. -/

inductive Json where
  | null : Json
  | bool (b : Bool) : Json
  | num (n : Int) : Json
  | str (s : List Char) : Json
  | arr (xs : List Json) : Json
  | obj (ms : List (List Char × Json)) : Json

def Json.isNumB : Json → Bool
  | .num _ => true
  | _ => false

/-! Structural size, used as the fuel bound for the parser. -/
mutual
def jsize : Json → Nat
  | .null => 1
  | .bool _ => 1
  | .num _ => 1
  | .str _ => 1
  | .arr xs => 1 + jsizeL xs
  | .obj ms => 1 + jsizeM ms
def jsizeL : List Json → Nat
  | [] => 0
  | x :: xs => 1 + jsize x + jsizeL xs
def jsizeM : List (List Char × Json) → Nat
  | [] => 0
  | (_, v) :: ms => 1 + jsize v + jsizeM ms
end

/-! ## Encoder (`json.dumps`, default flags) -/

/-- Lowercase hex digit, as CPython emits in `\uXXXX` escapes. -/
def hexDigitChar (n : Nat) : Char :=
  if n < 10 then Char.ofNat (48 + n) else Char.ofNat (87 + n)

def uEscape4 (n : Nat) : List Char :=
  ['\\', 'u', hexDigitChar (n / 4096 % 16), hexDigitChar (n / 256 % 16),
   hexDigitChar (n / 16 % 16), hexDigitChar (n % 16)]

/-- CPython `ensure_ascii` escaping of one character: `\"` and `\\`, the
short escapes for backspace, tab, newline, form feed, carriage return,
printable ASCII verbatim, and `\uXXXX` (a surrogate pair above
`U+FFFF`) for everything else. -/
def escapeChar (c : Char) : List Char :=
  if c = '"' then ['\\', '"']
  else if c = '\\' then ['\\', '\\']
  else if c.toNat = 8 then ['\\', 'b']
  else if c.toNat = 9 then ['\\', 't']
  else if c.toNat = 10 then ['\\', 'n']
  else if c.toNat = 12 then ['\\', 'f']
  else if c.toNat = 13 then ['\\', 'r']
  else if 32 ≤ c.toNat ∧ c.toNat ≤ 126 then [c]
  else if c.toNat < 65536 then uEscape4 c.toNat
  else
    uEscape4 (55296 + (c.toNat - 65536) / 1024) ++
      uEscape4 (56320 + (c.toNat - 65536) % 1024)

def escapeString : List Char → List Char
  | [] => []
  | c :: cs => escapeChar c ++ escapeString cs

def encodeStringLit (s : List Char) : List Char :=
  '"' :: (escapeString s ++ ['"'])

/-- Decimal digits of a natural number (`str(n)` for `n ≥ 0`). -/
def natChars (n : Nat) : List Char :=
  if n = 0 then ['0']
  else (Nat.digits 10 n).reverse.map fun d => Char.ofNat (48 + d)

/-- Python `str(int)`. -/
def intChars (n : Int) : List Char :=
  if n < 0 then '-' :: natChars n.natAbs else natChars n.natAbs

/-! `json.dumps` with the default separators `", "` and `": "`. -/
mutual
def encodeValue : Json → List Char
  | .num n => intChars n
  | .null => 'n' :: 'u' :: ['l', 'l']
  | .bool true => 't' :: 'r' :: ['u', 'e']
  | .bool false => 'f' :: 'a' :: ['l', 's', 'e']
  | .str s => encodeStringLit s
  | .arr [] => ['[', ']']
  | .arr (x :: xs) => '[' :: ((encodeValue x ++ encodeElemsRest xs) ++ [']'])
  | .obj [] => ['{', '}']
  | .obj (m :: ms) => '{' :: ((encodeMember m ++ encodeMembersRest ms) ++ ['}'])
def encodeMember : List Char × Json → List Char
  | (k, v) => encodeStringLit k ++ (':' :: ' ' :: encodeValue v)
def encodeElemsRest : List Json → List Char
  | [] => []
  | x :: xs => ',' :: ' ' :: (encodeValue x ++ encodeElemsRest xs)
def encodeMembersRest : List (List Char × Json) → List Char
  | [] => []
  | m :: ms => ',' :: ' ' :: (encodeMember m ++ encodeMembersRest ms)
end

/-! ## Parser (`json.loads`) -/

def isWsChar (c : Char) : Bool :=
  c == ' ' || c == '\t' || c == '\n' || c == '\r'

def skipWs : List Char → List Char
  | [] => []
  | c :: r => if isWsChar c then skipWs r else c :: r

def hexVal? (c : Char) : Option Nat :=
  if 48 ≤ c.toNat ∧ c.toNat ≤ 57 then some (c.toNat - 48)
  else if 97 ≤ c.toNat ∧ c.toNat ≤ 102 then some (c.toNat - 87)
  else if 65 ≤ c.toNat ∧ c.toNat ≤ 70 then some (c.toNat - 55)
  else Option.none

def parseHex4 : List Char → Option (Nat × List Char)
  | h1 :: h2 :: h3 :: h4 :: r =>
    match hexVal? h1, hexVal? h2, hexVal? h3, hexVal? h4 with
    | some a, some b, some c, some d =>
        some (((a * 16 + b) * 16 + c) * 16 + d, r)
    | _, _, _, _ => Option.none
  | _ => Option.none

def stripLitChars : List Char → List Char → Option (List Char)
  | [], s => some s
  | _ :: _, [] => Option.none
  | c :: cs, x :: xs => if x = c then stripLitChars cs xs else Option.none

/-- One JSON string body after the opening quote, fuelled (one unit of
fuel per decoded character; any fuel of at least the input length plus
one suffices).  Escape handling mirrors CPython `py_scanstring`:
`\" \\ \/ \b \f \n \r \t \uXXXX`, with surrogate-pair recombination and
a hard error on a lone surrogate escape. -/
def parseStringRestF : Nat → List Char → Option (List Char × List Char)
  | 0, _ => Option.none
  | fuel + 1, s =>
    match s with
    | [] => Option.none
    | c :: r =>
      if c = '"' then some ([], r)
      else if c = '\\' then
        match r with
        | [] => Option.none
        | e :: r2 =>
          if e = '"' then
            (parseStringRestF fuel r2).map fun p => ('"' :: p.1, p.2)
          else if e = '\\' then
            (parseStringRestF fuel r2).map fun p => ('\\' :: p.1, p.2)
          else if e = '/' then
            (parseStringRestF fuel r2).map fun p => ('/' :: p.1, p.2)
          else if e = 'b' then
            (parseStringRestF fuel r2).map fun p => (Char.ofNat 8 :: p.1, p.2)
          else if e = 'f' then
            (parseStringRestF fuel r2).map fun p => (Char.ofNat 12 :: p.1, p.2)
          else if e = 'n' then
            (parseStringRestF fuel r2).map fun p => (Char.ofNat 10 :: p.1, p.2)
          else if e = 'r' then
            (parseStringRestF fuel r2).map fun p => (Char.ofNat 13 :: p.1, p.2)
          else if e = 't' then
            (parseStringRestF fuel r2).map fun p => (Char.ofNat 9 :: p.1, p.2)
          else if e = 'u' then
            match parseHex4 r2 with
            | Option.none => Option.none
            | some (u, r3) =>
              if 55296 ≤ u ∧ u ≤ 56319 then
                match r3 with
                | b1 :: b2 :: r4 =>
                  if b1 = '\\' ∧ b2 = 'u' then
                    match parseHex4 r4 with
                    | Option.none => Option.none
                    | some (u2, r5) =>
                      if 56320 ≤ u2 ∧ u2 ≤ 57343 then
                        (parseStringRestF fuel r5).map fun p =>
                          (Char.ofNat (65536 + (u - 55296) * 1024 +
                            (u2 - 56320)) :: p.1, p.2)
                      else Option.none
                  else Option.none
                | _ => Option.none
              else if 56320 ≤ u ∧ u ≤ 57343 then Option.none
              else (parseStringRestF fuel r3).map fun p =>
                (Char.ofNat u :: p.1, p.2)
          else Option.none
      else if 32 ≤ c.toNat then
        (parseStringRestF fuel r).map fun p => (c :: p.1, p.2)
      else Option.none

/-- The string-body parser, self-fuelled. -/
def parseStringRest (s : List Char) : Option (List Char × List Char) :=
  parseStringRestF (s.length + 1) s

def parseDigitsAux : Nat → List Char → Nat × List Char
  | acc, [] => (acc, [])
  | acc, c :: r =>
    if c.isDigit then parseDigitsAux (acc * 10 + (c.toNat - 48)) r
    else (acc, c :: r)

/-- A JSON integer literal: `0`, or a nonzero-leading digit run (the JSON
grammar forbids leading zeros). -/
def parseNatTok : List Char → Option (Nat × List Char)
  | [] => Option.none
  | c :: r =>
    if c = '0' then some (0, r)
    else if c.isDigit then some (parseDigitsAux (c.toNat - 48) r)
    else Option.none

def parseIntTok : List Char → Option (Int × List Char)
  | [] => Option.none
  | c :: r =>
    if c = '-' then (parseNatTok r).map fun p => (-(p.1 : Int), p.2)
    else (parseNatTok (c :: r)).map fun p => ((p.1 : Int), p.2)

/-! One JSON value / object-member run / array-element run, fuelled (one
unit per nesting step; any fuel of at least `jsize` of the value
suffices, and the self-fuelled `loads` below always has enough). -/
mutual
def parseValue : Nat → List Char → Option (Json × List Char)
  | 0, _ => Option.none
  | f + 1, s =>
    match skipWs s with
    | [] => Option.none
    | c :: r =>
      if c = '{' then
        match skipWs r with
        | [] => Option.none
        | c2 :: r2 =>
          if c2 = '}' then some (.obj [], r2)
          else (parseMembers f (c2 :: r2)).map fun p => (.obj p.1, p.2)
      else if c = '[' then
        match skipWs r with
        | [] => Option.none
        | c2 :: r2 =>
          if c2 = ']' then some (.arr [], r2)
          else (parseElements f (c2 :: r2)).map fun p => (.arr p.1, p.2)
      else if c = '"' then
        (parseStringRest r).map fun p => (.str p.1, p.2)
      else if c = 't' then
        (stripLitChars ['r', 'u', 'e'] r).map fun r2 => (.bool true, r2)
      else if c = 'f' then
        (stripLitChars ['a', 'l', 's', 'e'] r).map fun r2 => (.bool false, r2)
      else if c = 'n' then
        (stripLitChars ['u', 'l', 'l'] r).map fun r2 => (.null, r2)
      else
        (parseIntTok (c :: r)).map fun p => (.num p.1, p.2)
def parseMembers : Nat → List Char → Option (List (List Char × Json) × List Char)
  | 0, _ => Option.none
  | f + 1, s =>
    match skipWs s with
    | [] => Option.none
    | c :: r =>
      if c = '"' then
        match parseStringRest r with
        | Option.none => Option.none
        | some (key, r2) =>
          match skipWs r2 with
          | [] => Option.none
          | c2 :: r3 =>
            if c2 = ':' then
              match parseValue f r3 with
              | Option.none => Option.none
              | some (v, r4) =>
                match skipWs r4 with
                | [] => Option.none
                | c3 :: r5 =>
                  if c3 = ',' then
                    (parseMembers f r5).map fun p => ((key, v) :: p.1, p.2)
                  else if c3 = '}' then some ([(key, v)], r5)
                  else Option.none
            else Option.none
      else Option.none
def parseElements : Nat → List Char → Option (List Json × List Char)
  | 0, _ => Option.none
  | f + 1, s =>
    match parseValue f s with
    | Option.none => Option.none
    | some (v, r) =>
      match skipWs r with
      | [] => Option.none
      | c :: r2 =>
        if c = ',' then (parseElements f r2).map fun p => (v :: p.1, p.2)
        else if c = ']' then some ([v], r2)
        else Option.none
end

/-- Whether a byte stream continues with a decimal digit (the only way a
JSON integer token could be extended by further input). -/
def headIsDigit : List Char → Bool
  | [] => false
  | c :: _ => c.isDigit

/-- `json.loads`: parse one document, self-fuelled (the parser consumes at
least one character per unit of fuel, so `length + 1` never runs out),
and require only trailing whitespace after it. -/
def loads (s : List Char) : Option Json :=
  match parseValue (s.length + 1) s with
  | some (v, r) => if (skipWs r).isEmpty then some v else Option.none
  | Option.none => Option.none

/-! ## The two incremental decode loops -/

/-- The listener-side accumulator loop of `_handle_client` (addon.py lines
193-233): for each `recv` result, an empty chunk means the client
disconnected (no Command is decoded); otherwise append to the buffer and
try to parse it, treating a parse failure as "incomplete, wait for more".
Returns the first complete Command decoded, if any. -/
def accumLoop (buffer : List Char) : List (List Char) → Option Json
  | [] => Option.none
  | chunk :: rest =>
    if chunk.isEmpty then Option.none
    else
      match loads (buffer ++ chunk) with
      | some v => some v
      | Option.none => accumLoop (buffer ++ chunk) rest

/-- One observable outcome of a blocking `sock.recv` on the client side:
data (possibly `b""` when the peer closed) or a timeout. -/
inductive NetEvent where
  | data (bytes : List Char) : NetEvent
  | timeout : NetEvent

/-- The code after `receive_full_response`'s loop (server.py lines
216-229): with a nonempty accumulator, return the raw bytes if they now
parse, else fail with "Incomplete JSON response received"; with an empty
accumulator fail with "Timeout: No data received". -/
def rfrTail (acc : List Char) : Except String (List Char) :=
  if acc.isEmpty then .error "Timeout: No data received"
  else
    match loads acc with
    | some _ => .ok acc
    | Option.none => .error "Incomplete JSON response received"

/-- The loop of `BlenderConnection.receive_full_response` (server.py lines
175-229): append each received chunk and return the raw bytes once they
parse as one JSON document; a zero-byte read with an empty accumulator
raises "Connection closed before receiving any data", a zero-byte read
with data breaks to the tail, and a timeout breaks to the tail.  `none`
means the modelled event list ended while the loop was still blocked. -/
def receiveLoop (acc : List Char) : List NetEvent → Option (Except String (List Char))
  | [] => Option.none
  | .timeout :: _ => some (rfrTail acc)
  | .data [] :: _ =>
    if acc.isEmpty then
      some (.error "Connection closed before receiving any data")
    else some (rfrTail acc)
  | .data (b :: bs) :: rest =>
    match loads (acc ++ b :: bs) with
    | some _ => some (.ok (acc ++ b :: bs))
    | Option.none => receiveLoop (acc ++ b :: bs) rest

def receiveFullResponse (events : List NetEvent) : Option (Except String (List Char)) :=
  receiveLoop [] events

/-! ## Helper lemmas about the handler table -/

theorem contains_iff (l : List String) (a : String) :
    l.contains a = true ↔ a ∈ l := by
  induction l with
  | nil => simp
  | cons x xs ih => simp [List.contains_cons, ih]

theorem mem_handlerNames (flags : FeatureFlags) (name : String) :
    name ∈ handlerNames flags ↔
      name ∈ baseHandlerNames ∨
      (flags.usePolyhaven = true ∧ name ∈ polyhavenHandlerNames) ∨
      (flags.useHyper3d = true ∧ name ∈ hyper3dHandlerNames) ∨
      (flags.useSketchfab = true ∧ name ∈ sketchfabHandlerNames) ∨
      (flags.useHunyuan3d = true ∧ name ∈ hunyuan3dHandlerNames) ∨
      name ∈ aiHandlerNames ∨ name ∈ advancedHandlerNames := by
  rcases flags with ⟨p, h2, sk, hu⟩
  simp only [handlerNames, List.mem_append]
  cases p <;> cases h2 <;> cases sk <;> cases hu <;> simp <;> tauto

theorem contains_get_polyhaven_status (flags : FeatureFlags) :
    (handlerNames flags).contains "get_polyhaven_status" = true := by
  rw [contains_iff, mem_handlerNames]
  left
  decide

/-! ## Claim C2: the auth gate -/

/-- Claim C2, counterexample to the claim as stated: with listener token
`"secret123"`, a Command whose `auth_token` is the *empty string* — which is
not equal to the token — is nevertheless dispatched to its handler (Python
truthiness: an empty provided token skips the check), instead of being
answered with the auth error. -/
theorem auth_gate_empty_token_cex :
    (executeCommandInternal ⟨false, false, false, false⟩ ⟨"Scene", [], 0⟩
        "secret123" (fun _ _ => .raises "stub")
        ⟨"get_scene_info", [], some ""⟩).invoked = ["get_scene_info"] ∧
    (executeCommandInternal ⟨false, false, false, false⟩ ⟨"Scene", [], 0⟩
        "secret123" (fun _ _ => .raises "stub")
        ⟨"get_scene_info", [], some ""⟩).resp ≠
      Resp.error "Invalid authentication token" := by
  refine ⟨rfl, ?_⟩
  have h : (executeCommandInternal ⟨false, false, false, false⟩ ⟨"Scene", [], 0⟩
      "secret123" (fun _ _ => .raises "stub")
      ⟨"get_scene_info", [], some ""⟩).resp =
      Resp.success (getSceneInfo ⟨"Scene", [], 0⟩) := rfl
  rw [h]
  exact fun hc => Resp.noConfusion hc

/-- Claim C2 (amended): with the listener holding a non-empty token `T`,
a Command with `auth_token` absent is dispatched; a Command with
`auth_token = T` is dispatched; and a Command with a **non-empty**
`auth_token` different from `T` is answered with
`{"status": "error", "message": "Invalid authentication token"}` before
dispatch, so its handler is never invoked.  (The amendment: a present but
empty token is not rejected — see the counterexample.) -/
theorem auth_gate_spec (T : String) (_hT : T ≠ "") (flags : FeatureFlags)
    (scene : Scene) (behave : String → List (String × PyVal) → HandlerOutcome)
    (cmd : Command) :
    (cmd.authToken = Option.none →
      executeCommandInternal flags scene T behave cmd =
        dispatchCommand flags scene behave cmd) ∧
    (cmd.authToken = some T →
      executeCommandInternal flags scene T behave cmd =
        dispatchCommand flags scene behave cmd) ∧
    (∀ tok, cmd.authToken = some tok → tok ≠ "" → tok ≠ T →
      executeCommandInternal flags scene T behave cmd =
        ⟨.error "Invalid authentication token", []⟩) := by
  refine ⟨?_, ?_, ?_⟩
  · intro h
    simp [executeCommandInternal, authRejected, h]
  · intro h
    simp [executeCommandInternal, authRejected, h]
  · intro tok h hne hneT
    simp [executeCommandInternal, authRejected, h, hne, hneT]

/-- Claim C2, witness: the amended theorem applied at the listener token
`"right"` to a Command carrying the wrong token `"wrong"`: the auth error
is returned and no handler runs. -/
theorem auth_gate_spec_witness :
    executeCommandInternal ⟨false, false, false, false⟩ ⟨"Scene", [], 0⟩
        "right" (fun _ _ => .raises "stub")
        ⟨"get_scene_info", [], some "wrong"⟩ =
      ⟨.error "Invalid authentication token", []⟩ :=
  (auth_gate_spec "right" (by decide) ⟨false, false, false, false⟩
      ⟨"Scene", [], 0⟩ (fun _ _ => .raises "stub")
      ⟨"get_scene_info", [], some "wrong"⟩).2.2 "wrong" rfl (by decide) (by decide)

/-! ## Claim C10: an empty provided token is accepted -/

/-- Claim C10: a Command whose `auth_token` field is present but equal to
the empty string is accepted and dispatched, even though the empty string
differs from the listener's non-empty token: the auth check only rejects a
provided token that is both non-empty and unequal to the listener token. -/
theorem empty_token_accepted (T : String) (_hT : T ≠ "") (flags : FeatureFlags)
    (scene : Scene) (behave : String → List (String × PyVal) → HandlerOutcome)
    (cmd : Command) (h : cmd.authToken = some "") :
    authRejected T cmd.authToken = false ∧
    executeCommandInternal flags scene T behave cmd =
      dispatchCommand flags scene behave cmd := by
  constructor
  · simp [authRejected, h]
  · simp [executeCommandInternal, authRejected, h]

/-- Claim C10, witness: with listener token `"secret123"` and a Command
carrying `auth_token = ""`, the gate does not reject and the Command is
dispatched. -/
theorem empty_token_accepted_witness :
    authRejected "secret123" (Command.authToken ⟨"add_modifier", [], some ""⟩) = false ∧
    executeCommandInternal ⟨false, false, false, false⟩ ⟨"Scene", [], 0⟩
        "secret123" (fun _ _ => .returns (.dict []))
        ⟨"add_modifier", [], some ""⟩ =
      dispatchCommand ⟨false, false, false, false⟩ ⟨"Scene", [], 0⟩
        (fun _ _ => .returns (.dict [])) ⟨"add_modifier", [], some ""⟩ :=
  empty_token_accepted "secret123" (by decide) ⟨false, false, false, false⟩
    ⟨"Scene", [], 0⟩ (fun _ _ => .returns (.dict []))
    ⟨"add_modifier", [], some ""⟩ rfl

/-! ## Claim C3: feature gating at dispatch time -/

/-- Claim C3, counterexample to the claim as stated: the claim lists the AI
helpers among the flag-gated feature groups, but with every feature flag
disabled the AI-helper command `nlp_create` still resolves to its handler
(the AI and advanced groups are merged unconditionally), instead of
getting the unknown-command error. -/
theorem feature_gating_ai_always_on_cex :
    (executeCommandInternal ⟨false, false, false, false⟩ ⟨"Scene", [], 0⟩
        "tok" (fun _ _ => .returns (.dict []))
        ⟨"nlp_create", [], Option.none⟩).invoked = ["nlp_create"] ∧
    (executeCommandInternal ⟨false, false, false, false⟩ ⟨"Scene", [], 0⟩
        "tok" (fun _ _ => .returns (.dict []))
        ⟨"nlp_create", [], Option.none⟩).resp ≠
      Resp.error "Unknown command type: nlp_create" := by
  refine ⟨rfl, ?_⟩
  have h : (executeCommandInternal ⟨false, false, false, false⟩ ⟨"Scene", [], 0⟩
      "tok" (fun _ _ => .returns (.dict []))
      ⟨"nlp_create", [], Option.none⟩).resp = Resp.success (.dict []) := rfl
  rw [h]
  exact fun hc => Resp.noConfusion hc

/-- Claim C3 (amended): the dispatch table is rebuilt at every dispatch from
the current flags, but only the four asset-marketplace groups (PolyHaven,
Hyper3D, Sketchfab, Hunyuan3D) are flag-gated; the AI helpers and the
mesh/animation/physics/render operations are merged unconditionally.  A
gated name resolves exactly when its owning flag is enabled at that
dispatch — so toggling a flag takes effect on the very next Command — and a
gated name with its flag disabled gets the unknown-command error, while
base, AI and advanced names always resolve. -/
theorem feature_gating_spec (flags : FeatureFlags) (name : String) :
    ((name ∈ polyhavenHandlerNames →
        (name ∈ handlerNames flags ↔ flags.usePolyhaven = true)) ∧
     (name ∈ hyper3dHandlerNames →
        (name ∈ handlerNames flags ↔ flags.useHyper3d = true)) ∧
     (name ∈ sketchfabHandlerNames →
        (name ∈ handlerNames flags ↔ flags.useSketchfab = true)) ∧
     (name ∈ hunyuan3dHandlerNames →
        (name ∈ handlerNames flags ↔ flags.useHunyuan3d = true)) ∧
     ((name ∈ baseHandlerNames ∨ name ∈ aiHandlerNames ∨
        name ∈ advancedHandlerNames) → name ∈ handlerNames flags)) ∧
    (∀ scene behave params,
      (name ∈ polyhavenHandlerNames ∧ flags.usePolyhaven = false ∨
       name ∈ hyper3dHandlerNames ∧ flags.useHyper3d = false ∨
       name ∈ sketchfabHandlerNames ∧ flags.useSketchfab = false ∨
       name ∈ hunyuan3dHandlerNames ∧ flags.useHunyuan3d = false) →
      dispatchCommand flags scene behave ⟨name, params, Option.none⟩ =
        ⟨.error ("Unknown command type: " ++ name), []⟩) ∧
    (∀ scene behave params, name ∈ handlerNames flags →
      (dispatchCommand flags scene behave ⟨name, params, Option.none⟩).invoked
        = [name]) := by
  refine ⟨⟨?_, ?_, ?_, ?_, ?_⟩, ?_, ?_⟩
  · intro h
    rcases flags with ⟨p, h2, sk, hu⟩
    fin_cases h <;> cases p <;> cases h2 <;> cases sk <;> cases hu <;> decide
  · intro h
    rcases flags with ⟨p, h2, sk, hu⟩
    fin_cases h <;> cases p <;> cases h2 <;> cases sk <;> cases hu <;> decide
  · intro h
    rcases flags with ⟨p, h2, sk, hu⟩
    fin_cases h <;> cases p <;> cases h2 <;> cases sk <;> cases hu <;> decide
  · intro h
    rcases flags with ⟨p, h2, sk, hu⟩
    fin_cases h <;> cases p <;> cases h2 <;> cases sk <;> cases hu <;> decide
  · intro h
    rw [mem_handlerNames]
    tauto
  · intro scene behave params hoff
    have hnot : ¬ name ∈ handlerNames flags := by
      rcases flags with ⟨p, h2, sk, hu⟩
      rcases hoff with ⟨h, hf⟩ | ⟨h, hf⟩ | ⟨h, hf⟩ | ⟨h, hf⟩ <;>
        cases p <;> cases h2 <;> cases sk <;> cases hu <;>
          first
            | exact absurd hf (by decide)
            | (fin_cases h <;> decide)
    have hc : (handlerNames flags).contains name = false := by
      cases hcc : (handlerNames flags).contains name with
      | false => rfl
      | true => exact absurd ((contains_iff _ _).mp hcc) hnot
    have hgps : name ≠ "get_polyhaven_status" := by
      intro he
      apply hnot
      rw [he, mem_handlerNames]
      left
      decide
    simp only [dispatchCommand]
    rw [if_neg hgps]
    simp [hc]
    exact fun hmem => absurd hmem hnot
  · intro scene behave params h
    by_cases hg : name = "get_polyhaven_status"
    · subst hg
      simp [dispatchCommand]
    · have hc : (handlerNames flags).contains name = true := (contains_iff _ _).mpr h
      cases hr : runHandler scene behave name params <;>
        simp [dispatchCommand, hg, hc, hr, h]

/-- Claim C3, witness: the PolyHaven-gated command `set_texture` gets the
unknown-command error when `use_polyhaven` is off, and resolves to its
handler on the very next dispatch once the flag is on. -/
theorem feature_gating_spec_witness :
    dispatchCommand ⟨false, false, false, false⟩ ⟨"Scene", [], 0⟩
        (fun _ _ => .returns (.dict [])) ⟨"set_texture", [], Option.none⟩ =
      ⟨.error ("Unknown command type: " ++ "set_texture"), []⟩ ∧
    (dispatchCommand ⟨true, false, false, false⟩ ⟨"Scene", [], 0⟩
        (fun _ _ => .returns (.dict []))
        ⟨"set_texture", [], Option.none⟩).invoked = ["set_texture"] :=
  ⟨(feature_gating_spec ⟨false, false, false, false⟩ "set_texture").2.1 _ _ _
      (Or.inl ⟨by decide, rfl⟩),
   (feature_gating_spec ⟨true, false, false, false⟩ "set_texture").2.2 _ _ _
      (by rw [mem_handlerNames]; right; left; exact ⟨rfl, by decide⟩)⟩

/-! ## Claim C4: the two handler failure channels -/

/-- Claim C4: for a dispatched Command (auth passed, type resolved; the
`get_polyhaven_status` early return is modelled concretely and excluded),
a handler that raises yields `{"status": "error", "message": str(e)}`,
and a handler that returns a mapping — *any* mapping, including one
containing an `"error"` key — yields `{"status": "success", "result": m}`:
the embedded error is never promoted to a transport-level error. -/
theorem handler_error_channels (flags : FeatureFlags) (scene : Scene)
    (T : String) (behave : String → List (String × PyVal) → HandlerOutcome)
    (cmd : Command)
    (hauth : authRejected T cmd.authToken = false)
    (hres : (handlerNames flags).contains cmd.type = true)
    (hgps : cmd.type ≠ "get_polyhaven_status") :
    (∀ msg, runHandler scene behave cmd.type cmd.params = .raises msg →
      executeCommandInternal flags scene T behave cmd =
        ⟨.error msg, [cmd.type]⟩) ∧
    (∀ m, runHandler scene behave cmd.type cmd.params = .returns m →
      executeCommandInternal flags scene T behave cmd =
        ⟨.success m, [cmd.type]⟩) := by
  have hmem : cmd.type ∈ handlerNames flags := (contains_iff _ _).mp hres
  constructor
  · intro msg hr
    simp [executeCommandInternal, hauth, dispatchCommand, hgps, hres, hr, hmem]
  · intro m hr
    simp [executeCommandInternal, hauth, dispatchCommand, hgps, hres, hr, hmem]

/-- Claim C4, witness: a handler that returns `{"error": "soft failure"}`
still produces a `success` Response carrying that mapping as `result`. -/
theorem handler_error_channels_witness :
    executeCommandInternal ⟨false, false, false, false⟩ ⟨"Scene", [], 0⟩
        "tok" (fun _ _ => .returns (.dict [("error", .str "soft failure")]))
        ⟨"add_modifier", [], Option.none⟩ =
      ⟨.success (.dict [("error", .str "soft failure")]), ["add_modifier"]⟩ :=
  (handler_error_channels ⟨false, false, false, false⟩ ⟨"Scene", [], 0⟩ "tok"
      (fun _ _ => .returns (.dict [("error", .str "soft failure")]))
      ⟨"add_modifier", [], Option.none⟩ rfl rfl (by decide)).2
    (.dict [("error", .str "soft failure")]) rfl

/-! ## Claim C6: unknown command type -/

/-- Claim C6: a Command whose type resolves to no handler in the
flag-filtered table gets exactly
`{"status": "error", "message": "Unknown command type: <type>"}`, and no
handler is invoked.  (The dispatcher is a total function in this model:
no exception escapes.) -/
theorem unknown_command_error (flags : FeatureFlags) (scene : Scene)
    (T : String) (behave : String → List (String × PyVal) → HandlerOutcome)
    (cmd : Command)
    (hauth : authRejected T cmd.authToken = false)
    (hres : (handlerNames flags).contains cmd.type = false) :
    executeCommandInternal flags scene T behave cmd =
      ⟨.error ("Unknown command type: " ++ cmd.type), []⟩ := by
  have hgps : cmd.type ≠ "get_polyhaven_status" := by
    intro he
    rw [he, contains_get_polyhaven_status] at hres
    exact Bool.noConfusion hres
  have hnot : ¬ cmd.type ∈ handlerNames flags := by
    intro hmem
    rw [(contains_iff _ _).mpr hmem] at hres
    exact Bool.noConfusion hres
  simp only [executeCommandInternal, hauth, Bool.false_eq_true, if_false,
    dispatchCommand]
  rw [if_neg hgps]
  simp [hres]
  exact fun hmem => absurd hmem hnot

/-- Claim C6, witness: `{"type": "nonexistent_op", "params": {}}` gets
`{"status": "error", "message": "Unknown command type: nonexistent_op"}`. -/
theorem unknown_command_error_witness :
    executeCommandInternal ⟨true, true, true, true⟩ ⟨"Scene", [], 0⟩
        "tok" (fun _ _ => .returns (.dict []))
        ⟨"nonexistent_op", [], Option.none⟩ =
      ⟨.error ("Unknown command type: " ++ "nonexistent_op"), []⟩ :=
  unknown_command_error ⟨true, true, true, true⟩ ⟨"Scene", [], 0⟩ "tok"
    (fun _ _ => .returns (.dict [])) ⟨"nonexistent_op", [], Option.none⟩
    rfl rfl

/-! ## Claim C7: end-to-end get_scene_info on an empty scene -/

/-- Claim C7: a Command `{"type": "get_scene_info", "params": {},
"auth_token": T}` with `T` the listener token, run against a scene stub
named `"Scene"` with zero objects and zero materials, yields
`{"status": "success", "result": {"name": "Scene", "object_count": 0,
"objects": [], "materials_count": 0}}`. -/
theorem get_scene_info_end_to_end (T : String) (_hT : T ≠ "")
    (flags : FeatureFlags)
    (behave : String → List (String × PyVal) → HandlerOutcome) :
    executeCommandInternal flags ⟨"Scene", [], 0⟩ T behave
        ⟨"get_scene_info", [], some T⟩ =
      ⟨.success (.dict [("name", .str "Scene"), ("object_count", .int 0),
                        ("objects", .list []), ("materials_count", .int 0)]),
       ["get_scene_info"]⟩ := by
  have hauth : authRejected T (some T) = false := by
    simp [authRejected]
  have hmem : ("get_scene_info" : String) ∈ handlerNames flags := by
    rw [mem_handlerNames]
    left
    decide
  simp only [executeCommandInternal, hauth, Bool.false_eq_true, if_false,
    dispatchCommand]
  rw [if_neg (by decide : ("get_scene_info" : String) ≠ "get_polyhaven_status")]
  rw [if_pos ((contains_iff _ _).mpr hmem)]
  rfl

/-- Claim C7, witness: the end-to-end scenario with token `"abc123"`. -/
theorem get_scene_info_end_to_end_witness :
    executeCommandInternal ⟨false, false, false, false⟩ ⟨"Scene", [], 0⟩
        "abc123" (fun _ _ => .raises "stub")
        ⟨"get_scene_info", [], some "abc123"⟩ =
      ⟨.success (.dict [("name", .str "Scene"), ("object_count", .int 0),
                        ("objects", .list []), ("materials_count", .int 0)]),
       ["get_scene_info"]⟩ :=
  get_scene_info_end_to_end "abc123" (by decide) ⟨false, false, false, false⟩
    (fun _ _ => .raises "stub")

/-! ## Claim C9: get_scene_info truncates the object listing -/

/-- Claim C9: for every scene, the `"objects"` list of `get_scene_info`
holds the entries of the first 10 objects in scene order (name, type,
location rounded to 2 decimals), hence at most 10 entries, while
`"object_count"` still reports the full number of objects. -/
theorem scene_info_truncation (scene : Scene) :
    (getSceneInfo scene).lookup "objects" =
        some (.list ((scene.objects.take 10).map objectInfo)) ∧
    (∀ l, (getSceneInfo scene).lookup "objects" = some (.list l) →
        l.length ≤ 10) ∧
    (getSceneInfo scene).lookup "object_count" =
        some (.int scene.objects.length) := by
  refine ⟨rfl, ?_, rfl⟩
  intro l hl
  have he : PyVal.list ((scene.objects.take 10).map objectInfo) = PyVal.list l := by
    have h0 : (getSceneInfo scene).lookup "objects" =
        some (.list ((scene.objects.take 10).map objectInfo)) := rfl
    rw [h0] at hl
    exact Option.some.inj hl
  have hlen : l = (scene.objects.take 10).map objectInfo :=
    (PyVal.list.inj he).symm
  rw [hlen, List.length_map]
  calc (scene.objects.take 10).length ≤ 10 := by
        rw [List.length_take]
        exact min_le_left _ _

/-- Claim C9, witness: a scene with 12 identical objects: the listing has
10 entries while the count reports 12. -/
theorem scene_info_truncation_witness :
    (getSceneInfo ⟨"S", List.replicate 12 ⟨"o", "MESH", (0, 0, 0)⟩, 3⟩).lookup
        "objects" =
      some (.list (((List.replicate 12
        (⟨"o", "MESH", (0, 0, 0)⟩ : SceneObject)).take 10).map objectInfo)) ∧
    (((List.replicate 12
        (⟨"o", "MESH", (0, 0, 0)⟩ : SceneObject)).take 10).map
          objectInfo).length ≤ 10 ∧
    (getSceneInfo ⟨"S", List.replicate 12 ⟨"o", "MESH", (0, 0, 0)⟩, 3⟩).lookup
        "object_count" = some (.int 12) :=
  ⟨(scene_info_truncation ⟨"S", List.replicate 12 ⟨"o", "MESH", (0, 0, 0)⟩, 3⟩).1,
   (scene_info_truncation ⟨"S", List.replicate 12 ⟨"o", "MESH", (0, 0, 0)⟩, 3⟩).2.1
     _ (scene_info_truncation _).1,
   (scene_info_truncation ⟨"S", List.replicate 12 ⟨"o", "MESH", (0, 0, 0)⟩, 3⟩).2.2⟩

/-! ## Claim C8: disconnect semantics -/

/-- Claim C8, counterexample to the claim as stated: `disconnect()` does
*not* clear the cached auth token — after disconnecting a connection whose
cached token is `"cached"`, the token field still holds `"cached"`. -/
theorem disconnect_token_not_cleared_cex :
    ¬ ((Conn.disconnect ⟨some 0, some "cached"⟩).1.authToken = Option.none) := by
  intro h
  exact Option.noConfusion h

/-- Claim C8 (amended): `disconnect()` closes the socket if one is open and
is idempotent (on an already-disconnected connection it is a no-op leaving
the state unchanged); it leaves the cached auth token in place, but a
fresh successful `connect()` overwrites the cached token from the shared
environment channel, so the re-fetch guarantee still holds. -/
theorem disconnect_spec (c : Conn) :
    (c.disconnect.1.sock = Option.none) ∧
    (∀ s, c.sock = some s → c.disconnect.2 = [s]) ∧
    (c.sock = Option.none → c.disconnect = (c, [])) ∧
    (c.disconnect.1.disconnect = (c.disconnect.1, [])) ∧
    (c.disconnect.1.authToken = c.authToken) ∧
    (∀ envTok fresh, ((c.disconnect.1.connect envTok fresh true).1.authToken
        = envTok)) := by
  rcases c with ⟨sock, tok⟩
  cases sock <;>
    simp [Conn.disconnect, Conn.connect]

/-- Claim C8, witness: disconnecting a connected state closes its socket,
a second disconnect is a no-op, the cached token survives, and a fresh
connect re-fetches the token from the environment. -/
theorem disconnect_spec_witness :
    ((Conn.disconnect ⟨some 5, some "old"⟩).1.sock = Option.none) ∧
    (Conn.disconnect ⟨some 5, some "old"⟩).2 = [5] ∧
    ((Conn.disconnect ⟨some 5, some "old"⟩).1.disconnect =
      ((Conn.disconnect ⟨some 5, some "old"⟩).1, [])) ∧
    ((Conn.disconnect ⟨some 5, some "old"⟩).1.authToken = some "old") ∧
    (((Conn.disconnect ⟨some 5, some "old"⟩).1.connect (some "new") 6
        true).1.authToken = some "new") :=
  ⟨(disconnect_spec ⟨some 5, some "old"⟩).1,
   (disconnect_spec ⟨some 5, some "old"⟩).2.1 5 rfl,
   (disconnect_spec ⟨some 5, some "old"⟩).2.2.2.1,
   (disconnect_spec ⟨some 5, some "old"⟩).2.2.2.2.1,
   (disconnect_spec ⟨some 5, some "old"⟩).2.2.2.2.2 (some "new") 6⟩

/-! ## Codec lemmas: whitespace, literals, digits -/

theorem skipWs_cons (c : Char) (r : List Char) (h : isWsChar c = false) :
    skipWs (c :: r) = c :: r := by
  simp [skipWs, h]

theorem skipWs_space (t : List Char) : skipWs (' ' :: t) = skipWs t := by
  have h : isWsChar ' ' = true := rfl
  simp [skipWs, h]

theorem stripLitChars_self (cs t : List Char) :
    stripLitChars cs (cs ++ t) = some t := by
  induction cs with
  | nil => rfl
  | cons c cs ih => simp [stripLitChars, ih]

theorem digit_char_facts (d : Nat) (h : d < 10) :
    (Char.ofNat (48 + d)).isDigit = true ∧ (Char.ofNat (48 + d)).toNat = 48 + d ∧
    isWsChar (Char.ofNat (48 + d)) = false ∧
    (Char.ofNat (48 + d) = '0' ↔ d = 0) ∧
    Char.ofNat (48 + d) ≠ '{' ∧ Char.ofNat (48 + d) ≠ '[' ∧
    Char.ofNat (48 + d) ≠ '"' ∧ Char.ofNat (48 + d) ≠ 't' ∧
    Char.ofNat (48 + d) ≠ 'f' ∧ Char.ofNat (48 + d) ≠ 'n' ∧
    Char.ofNat (48 + d) ≠ '-' ∧ Char.ofNat (48 + d) ≠ ']' ∧
    Char.ofNat (48 + d) ≠ '}' ∧ Char.ofNat (48 + d) ≠ ',' := by
  interval_cases d <;> exact ⟨rfl, rfl, rfl, by decide, by decide, by decide,
    by decide, by decide, by decide, by decide, by decide, by decide,
    by decide, by decide⟩

theorem parseDigitsAux_spec (ds : List Nat) (acc : Nat) (r : List Char)
    (hds : ∀ d ∈ ds, d < 10) (hr : headIsDigit r = false) :
    parseDigitsAux acc (ds.map (fun d => Char.ofNat (48 + d)) ++ r) =
      (ds.foldl (fun a d => a * 10 + d) acc, r) := by
  induction ds generalizing acc with
  | nil =>
    cases r with
    | nil => rfl
    | cons c t =>
      simp only [headIsDigit] at hr
      simp [parseDigitsAux, hr]
  | cons d ds ih =>
    have hd := hds d (by simp)
    obtain ⟨h1, h2, _⟩ := digit_char_facts d hd
    have hds2 : ∀ x ∈ ds, x < 10 := fun x hx => hds x (by simp [hx])
    simp only [List.map_cons, List.cons_append, parseDigitsAux, h1, if_true, h2]
    have harith : 48 + d - 48 = d := by omega
    simp only [List.append_eq]
    rw [harith, ih (acc * 10 + d) hds2, List.foldl_cons]

theorem foldr_mul_add (l : List Nat) :
    l.foldr (fun d a => a * 10 + d) 0 = Nat.ofDigits 10 l := by
  induction l with
  | nil => simp [Nat.ofDigits_nil]
  | cons d l ih => simp [Nat.ofDigits_cons, ih]; ring

theorem foldl_rev_digits (n : Nat) :
    ((Nat.digits 10 n).reverse).foldl (fun a d => a * 10 + d) 0 = n := by
  rw [List.foldl_reverse]
  have h : (fun (x : Nat) (y : Nat) => (fun a d => a * 10 + d) y x) =
      fun d a => a * 10 + d := rfl
  rw [h, foldr_mul_add]
  exact_mod_cast Nat.ofDigits_digits 10 n

theorem natChars_head (n : Nat) :
    ∃ d t, natChars n = Char.ofNat (48 + d) :: t ∧ d < 10 := by
  by_cases h0 : n = 0
  · exact ⟨0, [], by simp [h0, natChars], by omega⟩
  · have hne : Nat.digits 10 n ≠ [] := Nat.digits_ne_nil_iff_ne_zero.mpr h0
    have hrne : (Nat.digits 10 n).reverse ≠ [] := by
      simpa using hne
    cases hh : (Nat.digits 10 n).reverse with
    | nil => exact absurd hh hrne
    | cons d ds =>
      refine ⟨d, ds.map fun d => Char.ofNat (48 + d), ?_, ?_⟩
      · simp [natChars, h0, hh]
      · exact Nat.digits_lt_base (by norm_num)
          (by rw [← List.mem_reverse, hh]; simp)

theorem natChars_spec (n : Nat) (r : List Char) (hr : headIsDigit r = false) :
    parseNatTok (natChars n ++ r) = some (n, r) := by
  by_cases h0 : n = 0
  · subst h0
    cases r with
    | nil => rfl
    | cons c t => rfl
  · have hne : Nat.digits 10 n ≠ [] := Nat.digits_ne_nil_iff_ne_zero.mpr h0
    have hrne : (Nat.digits 10 n).reverse ≠ [] := by simpa using hne
    cases hh : (Nat.digits 10 n).reverse with
    | nil => exact absurd hh hrne
    | cons d ds =>
      have hd10 : d < 10 := Nat.digits_lt_base (by norm_num)
        (by rw [← List.mem_reverse, hh]; simp)
      have hd0 : d ≠ 0 := by
        have hgl := Nat.getLast_digit_ne_zero 10 h0
        have hdig : Nat.digits 10 n = ds.reverse ++ [d] := by
          have h5 := congrArg List.reverse hh
          simpa using h5
        have h3 : (Nat.digits 10 n).getLast? = some d := by
          rw [hdig]
          simp
        rw [List.getLast?_eq_getLast _ hne] at h3
        rw [← Option.some.inj h3]
        exact hgl
      have hds : ∀ x ∈ ds, x < 10 := fun x hx => Nat.digits_lt_base (by norm_num)
        (by rw [← List.mem_reverse, hh]; simp [hx])
      obtain ⟨hdig, htn, _, hzero, _⟩ := digit_char_facts d hd10
      have hnc : natChars n = Char.ofNat (48 + d) :: ds.map fun x => Char.ofNat (48 + x) := by
        simp [natChars, h0, hh]
      rw [hnc]
      simp only [List.cons_append, parseNatTok]
      rw [if_neg (by rw [hzero]; exact hd0), if_pos hdig, htn]
      have harith : 48 + d - 48 = d := by omega
      rw [harith, parseDigitsAux_spec ds d r hds hr]
      have : ds.foldl (fun a x => a * 10 + x) d = n := by
        have h1 := foldl_rev_digits n
        rw [hh, List.foldl_cons] at h1
        simpa using h1
      rw [this]

theorem intChars_spec (n : Int) (r : List Char) (hr : headIsDigit r = false) :
    parseIntTok (intChars n ++ r) = some (n, r) := by
  by_cases hneg : n < 0
  · unfold intChars
    rw [if_pos hneg]
    simp only [List.cons_append, parseIntTok, if_true]
    rw [natChars_spec _ _ hr]
    simp only [Option.map_some']
    have harith : -((n.natAbs : Int)) = n := by omega
    rw [harith]
  · unfold intChars
    rw [if_neg hneg]
    obtain ⟨d, t, he, hd⟩ := natChars_head n.natAbs
    obtain ⟨_, _, _, _, _, _, _, _, _, _, hdash, _⟩ := digit_char_facts d hd
    rw [he]
    simp only [List.cons_append, parseIntTok]
    rw [if_neg hdash]
    rw [show Char.ofNat (48 + d) :: (t ++ r) = natChars n.natAbs ++ r by rw [he]; simp]
    rw [natChars_spec _ _ hr]
    simp only [Option.map_some']
    have harith : ((n.natAbs : Int)) = n := by omega
    rw [harith]

/-! ## Codec lemmas: string escapes -/

theorem hexDigitChar_facts (k : Nat) (h : k < 16) :
    hexVal? (hexDigitChar k) = some k ∧ hexDigitChar k ≠ '"' ∧
    hexDigitChar k ≠ '\\' ∧ 32 ≤ (hexDigitChar k).toNat := by
  interval_cases k <;> exact ⟨by decide, by decide, by decide, by decide⟩

theorem parseHex4_quad (a b c d : Nat) (r : List Char)
    (ha : a < 16) (hb : b < 16) (hc : c < 16) (hd : d < 16) :
    parseHex4 (hexDigitChar a :: hexDigitChar b :: hexDigitChar c ::
        hexDigitChar d :: r) =
      some (((a * 16 + b) * 16 + c) * 16 + d, r) := by
  obtain ⟨e1, _⟩ := hexDigitChar_facts a ha
  obtain ⟨e2, _⟩ := hexDigitChar_facts b hb
  obtain ⟨e3, _⟩ := hexDigitChar_facts c hc
  obtain ⟨e4, _⟩ := hexDigitChar_facts d hd
  simp [parseHex4, e1, e2, e3, e4]

theorem parseHex4_uEscape (n : Nat) (hn : n < 65536) (r : List Char) :
    parseHex4 (hexDigitChar (n / 4096 % 16) :: hexDigitChar (n / 256 % 16) ::
        hexDigitChar (n / 16 % 16) :: hexDigitChar (n % 16) :: r) =
      some (n, r) := by
  rw [parseHex4_quad _ _ _ _ r (by omega) (by omega) (by omega) (by omega)]
  have harith : ((n / 4096 % 16 * 16 + n / 256 % 16) * 16 + n / 16 % 16) * 16 +
      n % 16 = n := by omega
  rw [harith]

theorem parseStringRestF_nil (fuel : Nat) :
    parseStringRestF fuel [] = Option.none := by
  cases fuel <;> rfl

theorem char_valid_nat (c : Char) :
    c.toNat < 55296 ∨ (57343 < c.toNat ∧ c.toNat < 1114112) := c.valid

theorem psrF_esc_u_step (f : Nat) (r2 : List Char) :
    parseStringRestF (f + 1) ('\\' :: 'u' :: r2) =
      match parseHex4 r2 with
      | Option.none => Option.none
      | some (u, r3) =>
        if 55296 ≤ u ∧ u ≤ 56319 then
          match r3 with
          | b1 :: b2 :: r4 =>
            if b1 = '\\' ∧ b2 = 'u' then
              match parseHex4 r4 with
              | Option.none => Option.none
              | some (u2, r5) =>
                if 56320 ≤ u2 ∧ u2 ≤ 57343 then
                  (parseStringRestF f r5).map fun p =>
                    (Char.ofNat (65536 + (u - 55296) * 1024 +
                      (u2 - 56320)) :: p.1, p.2)
                else Option.none
            else Option.none
          | _ => Option.none
        else if 56320 ≤ u ∧ u ≤ 57343 then Option.none
        else (parseStringRestF f r3).map fun p => (Char.ofNat u :: p.1, p.2) := by
  rfl

theorem parseStringRestF_escapeChar (c : Char) (t : List Char) (fuel : Nat) :
    parseStringRestF (fuel + 1) (escapeChar c ++ t) =
      (parseStringRestF fuel t).map fun p => (c :: p.1, p.2) := by
  have hv := char_valid_nat c
  by_cases h1 : c = '"'
  · subst h1
    simp [escapeChar, parseStringRestF]
  by_cases h2 : c = '\\'
  · subst h2
    simp [escapeChar, parseStringRestF]
  by_cases h3 : c.toNat = 8
  · have hc : c = Char.ofNat 8 := by rw [← Char.ofNat_toNat c, h3]
    subst hc
    simp [escapeChar, parseStringRestF]
  by_cases h4 : c.toNat = 9
  · have hc : c = Char.ofNat 9 := by rw [← Char.ofNat_toNat c, h4]
    subst hc
    simp [escapeChar, parseStringRestF]
  by_cases h5 : c.toNat = 10
  · have hc : c = Char.ofNat 10 := by rw [← Char.ofNat_toNat c, h5]
    subst hc
    simp [escapeChar, parseStringRestF]
  by_cases h6 : c.toNat = 12
  · have hc : c = Char.ofNat 12 := by rw [← Char.ofNat_toNat c, h6]
    subst hc
    simp [escapeChar, parseStringRestF]
  by_cases h7 : c.toNat = 13
  · have hc : c = Char.ofNat 13 := by rw [← Char.ofNat_toNat c, h7]
    subst hc
    simp [escapeChar, parseStringRestF]
  by_cases h8 : 32 ≤ c.toNat ∧ c.toNat ≤ 126
  · have he : escapeChar c = [c] := by
      simp only [escapeChar, if_neg h1, if_neg h2]
      rw [if_neg (by omega), if_neg (by omega), if_neg (by omega),
          if_neg (by omega), if_neg (by omega), if_pos h8]
    rw [he]
    simp only [List.cons_append, List.nil_append, parseStringRestF]
    rw [if_neg h1, if_neg h2, if_pos h8.1]
  by_cases h9 : c.toNat < 65536
  · have he : escapeChar c = uEscape4 c.toNat := by
      simp only [escapeChar, if_neg h1, if_neg h2]
      rw [if_neg (by omega), if_neg (by omega), if_neg (by omega),
          if_neg (by omega), if_neg (by omega), if_neg h8, if_pos h9]
    have hs1 : ¬ (55296 ≤ c.toNat ∧ c.toNat ≤ 56319) := by omega
    have hs2 : ¬ (56320 ≤ c.toNat ∧ c.toNat ≤ 57343) := by omega
    rw [he]
    simp only [uEscape4, List.cons_append, List.nil_append, parseStringRestF]
    simp [parseHex4_uEscape c.toNat h9 t, hs1, hs2]
  · have he : escapeChar c =
        uEscape4 (55296 + (c.toNat - 65536) / 1024) ++
          uEscape4 (56320 + (c.toNat - 65536) % 1024) := by
      simp only [escapeChar, if_neg h1, if_neg h2]
      rw [if_neg (by omega), if_neg (by omega), if_neg (by omega),
          if_neg (by omega), if_neg (by omega), if_neg h8, if_neg h9]
    have hu : 65536 ≤ c.toNat ∧ c.toNat < 1114112 := by omega
    have hhi : 55296 + (c.toNat - 65536) / 1024 < 65536 := by omega
    have hlo : 56320 + (c.toNat - 65536) % 1024 < 65536 := by omega
    have hs1 : 55296 ≤ 55296 + (c.toNat - 65536) / 1024 ∧
        55296 + (c.toNat - 65536) / 1024 ≤ 56319 := by omega
    have hs2 : 56320 ≤ 56320 + (c.toNat - 65536) % 1024 ∧
        56320 + (c.toNat - 65536) % 1024 ≤ 57343 := by omega
    rw [he]
    simp only [uEscape4, List.cons_append, List.nil_append, List.append_assoc]
    rw [psrF_esc_u_step]
    rw [parseHex4_uEscape _ hhi]
    simp only [if_pos hs1]
    rw [if_pos (show True ∧ True from ⟨trivial, trivial⟩)]
    rw [parseHex4_uEscape _ hlo]
    simp only [if_pos hs2]
    have harith : 65536 + (55296 + (c.toNat - 65536) / 1024 - 55296) * 1024 +
        (56320 + (c.toNat - 65536) % 1024 - 56320) = c.toNat := by omega
    rw [harith, Char.ofNat_toNat]

theorem escapeString_length (s : List Char) :
    s.length ≤ (escapeString s).length := by
  induction s with
  | nil => simp [escapeString]
  | cons c cs ih =>
    have hc : 1 ≤ (escapeChar c).length := by
      unfold escapeChar
      split_ifs <;> simp [uEscape4]
    simp only [escapeString, List.length_cons, List.length_append]
    omega

theorem parseStringRestF_rt (s : List Char) (r : List Char) (fuel : Nat)
    (hf : s.length + 1 ≤ fuel) :
    parseStringRestF fuel (escapeString s ++ '"' :: r) = some (s, r) := by
  induction s generalizing fuel with
  | nil =>
    obtain ⟨f, rfl⟩ : ∃ f, fuel = f + 1 := ⟨fuel - 1, by omega⟩
    simp [escapeString, parseStringRestF]
  | cons c cs ih =>
    obtain ⟨f, rfl⟩ : ∃ f, fuel = f + 1 := ⟨fuel - 1, by omega⟩
    simp only [escapeString, List.append_assoc]
    rw [parseStringRestF_escapeChar c _ f]
    rw [ih f (by simp only [List.length_cons] at hf; omega)]
    rfl

theorem parseStringRest_rt (s r : List Char) :
    parseStringRest (escapeString s ++ '"' :: r) = some (s, r) := by
  unfold parseStringRest
  apply parseStringRestF_rt
  have h := escapeString_length s
  simp only [List.length_append, List.length_cons]
  omega

/-! ## Codec lemmas: a cut-short string literal never parses -/

theorem parseHex4_short (l : List Char) (hl : l.length ≤ 3) :
    parseHex4 l = Option.none := by
  rcases l with _ | ⟨a, _ | ⟨b, _ | ⟨c, _ | ⟨d, l⟩⟩⟩⟩
  · rfl
  · rfl
  · rfl
  · rfl
  · simp only [List.length_cons] at hl
    omega

theorem psrF_u_short (f : Nat) (l : List Char) (hl : l.length ≤ 3) :
    parseStringRestF (f + 1) ('\\' :: 'u' :: l) = Option.none := by
  rw [psrF_esc_u_step, parseHex4_short l hl]

theorem psrF_backslash_only (f : Nat) :
    parseStringRestF (f + 1) ['\\'] = Option.none := rfl

theorem escapeChar_shape (c : Char) :
    (∃ x, escapeChar c = ['\\', x]) ∨
    escapeChar c = [c] ∨
    (∃ u, u < 65536 ∧ escapeChar c = uEscape4 u) ∨
    (∃ hi lo, 55296 ≤ hi ∧ hi ≤ 56319 ∧ hi < 65536 ∧ 56320 ≤ lo ∧
      lo ≤ 57343 ∧ lo < 65536 ∧ escapeChar c = uEscape4 hi ++ uEscape4 lo) := by
  have hv := char_valid_nat c
  by_cases h1 : c = '"'
  · exact Or.inl ⟨'"', by subst h1; rfl⟩
  by_cases h2 : c = '\\'
  · exact Or.inl ⟨'\\', by subst h2; rfl⟩
  by_cases h3 : c.toNat = 8
  · refine Or.inl ⟨'b', ?_⟩
    simp only [escapeChar, if_neg h1, if_neg h2]
    rw [if_pos h3]
  by_cases h4 : c.toNat = 9
  · refine Or.inl ⟨'t', ?_⟩
    simp only [escapeChar, if_neg h1, if_neg h2]
    rw [if_neg (by omega), if_pos h4]
  by_cases h5 : c.toNat = 10
  · refine Or.inl ⟨'n', ?_⟩
    simp only [escapeChar, if_neg h1, if_neg h2]
    rw [if_neg (by omega), if_neg (by omega), if_pos h5]
  by_cases h6 : c.toNat = 12
  · refine Or.inl ⟨'f', ?_⟩
    simp only [escapeChar, if_neg h1, if_neg h2]
    rw [if_neg (by omega), if_neg (by omega), if_neg (by omega), if_pos h6]
  by_cases h7 : c.toNat = 13
  · refine Or.inl ⟨'r', ?_⟩
    simp only [escapeChar, if_neg h1, if_neg h2]
    rw [if_neg (by omega), if_neg (by omega), if_neg (by omega),
      if_neg (by omega), if_pos h7]
  by_cases h8 : 32 ≤ c.toNat ∧ c.toNat ≤ 126
  · refine Or.inr (Or.inl ?_)
    simp only [escapeChar, if_neg h1, if_neg h2]
    rw [if_neg (by omega), if_neg (by omega), if_neg (by omega),
      if_neg (by omega), if_neg (by omega), if_pos h8]
  by_cases h9 : c.toNat < 65536
  · refine Or.inr (Or.inr (Or.inl ⟨c.toNat, h9, ?_⟩))
    simp only [escapeChar, if_neg h1, if_neg h2]
    rw [if_neg (by omega), if_neg (by omega), if_neg (by omega),
      if_neg (by omega), if_neg (by omega), if_neg h8, if_pos h9]
  · refine Or.inr (Or.inr (Or.inr ⟨55296 + (c.toNat - 65536) / 1024,
      56320 + (c.toNat - 65536) % 1024, by omega, by omega, by omega,
      by omega, by omega, by omega, ?_⟩))
    simp only [escapeChar, if_neg h1, if_neg h2]
    rw [if_neg (by omega), if_neg (by omega), if_neg (by omega),
      if_neg (by omega), if_neg (by omega), if_neg h8, if_neg h9]

theorem len_pos_of_ne_nil {α : Type} {m : List α} (hm : m ≠ []) :
    1 ≤ m.length := by
  cases m with
  | nil => exact absurd rfl hm
  | cons a t => simp

theorem escapeChar_cut_none (c : Char) (p m : List Char) (hm : m ≠ [])
    (he : escapeChar c = p ++ m) : ∀ fuel, parseStringRestF fuel p = Option.none := by
  intro fuel
  cases fuel with
  | zero => rfl
  | succ f =>
    rcases escapeChar_shape c with ⟨x, hx⟩ | hx | ⟨u, hu, hx⟩ |
      ⟨hi, lo, hhi1, hhi2, hhi3, hlo1, hlo2, hlo3, hx⟩
    · rw [hx] at he
      rcases p with _ | ⟨a1, _ | ⟨a2, p3⟩⟩
      · exact parseStringRestF_nil _
      · simp only [List.cons_append, List.nil_append, List.cons.injEq] at he
        obtain ⟨rfl, -⟩ := he
        exact psrF_backslash_only f
      · exfalso
        simp at he
        tauto
    · rw [hx] at he
      rcases p with _ | ⟨a1, p2⟩
      · exact parseStringRestF_nil _
      · exfalso
        simp at he
        tauto
    · rw [hx] at he
      rcases p with _ | ⟨a1, _ | ⟨a2, p3⟩⟩
      · exact parseStringRestF_nil _
      · simp only [uEscape4, List.cons_append, List.nil_append,
          List.cons.injEq] at he
        obtain ⟨rfl, -⟩ := he
        exact psrF_backslash_only f
      · simp only [uEscape4, List.cons_append, List.nil_append,
          List.cons.injEq] at he
        obtain ⟨rfl, rfl, hrest⟩ := he
        have hlen := congrArg List.length hrest
        simp only [List.length_cons, List.length_append, List.length_nil,
          List.length] at hlen
        have hm1 := len_pos_of_ne_nil hm
        exact psrF_u_short f p3 (by omega)
    · rw [hx] at he
      rcases p with _ | ⟨a1, _ | ⟨a2, p3⟩⟩
      · exact parseStringRestF_nil _
      · simp only [uEscape4, List.cons_append, List.nil_append,
          List.cons.injEq] at he
        obtain ⟨rfl, -⟩ := he
        exact psrF_backslash_only f
      · simp only [uEscape4, List.cons_append, List.nil_append,
          List.cons.injEq] at he
        obtain ⟨rfl, rfl, hrest⟩ := he
        by_cases hp3 : p3.length ≤ 3
        · exact psrF_u_short f p3 hp3
        · rcases p3 with _ | ⟨b1, _ | ⟨b2, _ | ⟨b3, _ | ⟨b4, p7⟩⟩⟩⟩ <;>
            simp only [List.length] at hp3 <;> try omega
          simp only [List.cons_append, List.cons.injEq] at hrest
          obtain ⟨rfl, rfl, rfl, rfl, hrest2⟩ := hrest
          simp only [psrF_esc_u_step, parseHex4_uEscape _ hhi3]
          rw [if_pos (show 55296 ≤ hi ∧ hi ≤ 56319 from ⟨hhi1, hhi2⟩)]
          rcases p7 with _ | ⟨d1, _ | ⟨d2, p9⟩⟩
          · rfl
          · rfl
          · simp only [List.cons_append, List.cons.injEq] at hrest2
            obtain ⟨rfl, rfl, hrest3⟩ := hrest2
            have hlen := congrArg List.length hrest3
            simp only [List.length_cons, List.length_append, List.length_nil,
              List.length] at hlen
            have hm1 := len_pos_of_ne_nil hm
            simp [parseHex4_short p9 (by omega)]

theorem parseStringRestF_cut (s : List Char) : ∀ p m fuel,
    escapeString s ++ ['"'] = p ++ m → m ≠ [] →
    parseStringRestF fuel p = Option.none := by
  induction s with
  | nil =>
    intro p m fuel he hm
    simp only [escapeString, List.nil_append] at he
    rcases p with _ | ⟨a, p'⟩
    · exact parseStringRestF_nil _
    · exfalso
      simp at he
      tauto
  | cons c cs ih =>
    intro p m fuel he hm
    rw [show escapeString (c :: cs) = escapeChar c ++ escapeString cs from rfl,
        List.append_assoc] at he
    rcases List.append_eq_append_iff.mp he with ⟨a2, ha1, ha2⟩ | ⟨c2, hc1, hc2⟩
    · subst ha1
      cases fuel with
      | zero => rfl
      | succ f =>
        rw [parseStringRestF_escapeChar, ih a2 m f ha2 hm]
        rfl
    · rcases Classical.em (c2 = []) with rfl | hc2ne
      · rw [List.append_nil] at hc1
        cases fuel with
        | zero => rfl
        | succ f =>
          rw [show p = escapeChar c ++ [] by rw [List.append_nil]; exact hc1.symm,
            parseStringRestF_escapeChar, parseStringRestF_nil]
          rfl
      · exact escapeChar_cut_none c p c2 hc2ne hc1 fuel

/-! ## Codec lemmas: encoded values and whitespace -/

theorem intChars_head (n : Int) :
    ∃ c t, intChars n = c :: t ∧ isWsChar c = false ∧ c ≠ '{' ∧ c ≠ '[' ∧
      c ≠ '"' ∧ c ≠ 't' ∧ c ≠ 'f' ∧ c ≠ 'n' ∧ c ≠ ']' ∧ c ≠ '}' ∧ c ≠ ',' := by
  by_cases hneg : n < 0
  · exact ⟨'-', natChars n.natAbs, by simp [intChars, hneg], by decide,
      by decide, by decide, by decide, by decide, by decide, by decide,
      by decide, by decide, by decide⟩
  · obtain ⟨d, t, he, hd⟩ := natChars_head n.natAbs
    obtain ⟨_, _, hw, _, hbr1, hbr2, hq, ht, hf, hn, _, hrb, hcb, hcm⟩ :=
      digit_char_facts d hd
    exact ⟨Char.ofNat (48 + d), t, by simp [intChars, hneg, he], hw,
      hbr1, hbr2, hq, ht, hf, hn, hrb, hcb, hcm⟩

theorem encodeValue_head (v : Json) :
    ∃ c t, encodeValue v = c :: t ∧ isWsChar c = false ∧ c ≠ ']' ∧
      c ≠ '}' ∧ c ≠ ',' := by
  cases v with
  | null => exact ⟨'n', _, rfl, by decide, by decide, by decide, by decide⟩
  | bool b =>
    cases b with
    | true => exact ⟨'t', _, rfl, by decide, by decide, by decide, by decide⟩
    | false => exact ⟨'f', _, rfl, by decide, by decide, by decide, by decide⟩
  | num n =>
    obtain ⟨c, t, he, hw, _, _, _, _, _, _, h1, h2, h3⟩ := intChars_head n
    exact ⟨c, t, he, hw, h1, h2, h3⟩
  | str s => exact ⟨'"', _, rfl, by decide, by decide, by decide, by decide⟩
  | arr xs =>
    cases xs with
    | nil => exact ⟨'[', _, rfl, by decide, by decide, by decide, by decide⟩
    | cons x xs =>
      exact ⟨'[', _, rfl, by decide, by decide, by decide, by decide⟩
  | obj ms =>
    cases ms with
    | nil => exact ⟨'{', _, rfl, by decide, by decide, by decide, by decide⟩
    | cons m ms =>
      exact ⟨'{', _, rfl, by decide, by decide, by decide, by decide⟩

theorem skipWs_encode_append (v : Json) (r : List Char) :
    skipWs (encodeValue v ++ r) = encodeValue v ++ r := by
  obtain ⟨c, t, he, hw, -⟩ := encodeValue_head v
  rw [he, List.cons_append, skipWs_cons _ _ hw]

theorem jsize_pos (v : Json) : 1 ≤ jsize v := by
  cases v <;> simp [jsize]

theorem jsizeL_cons (x : Json) (xs : List Json) :
    jsizeL (x :: xs) = 1 + jsize x + jsizeL xs := rfl

theorem jsizeM_cons (k : List Char) (v : Json) (ms : List (List Char × Json)) :
    jsizeM ((k, v) :: ms) = 1 + jsize v + jsizeM ms := rfl

theorem parseValue_cons_space (f : Nat) (t : List Char) :
    parseValue f (' ' :: t) = parseValue f t := by
  cases f with
  | zero => rfl
  | succ g =>
    simp only [parseValue]
    rw [show skipWs (' ' :: t) = skipWs t from skipWs_space t]

theorem parseMembers_cons_space (f : Nat) (t : List Char) :
    parseMembers f (' ' :: t) = parseMembers f t := by
  cases f with
  | zero => rfl
  | succ g =>
    simp only [parseMembers]
    rw [show skipWs (' ' :: t) = skipWs t from skipWs_space t]

theorem headIsDigit_membersRest (ms : List (List Char × Json)) (r : List Char) :
    headIsDigit (encodeMembersRest ms ++ '}' :: r) = false := by
  cases ms <;> rfl

theorem headIsDigit_elemsRest (xs : List Json) (r : List Char) :
    headIsDigit (encodeElemsRest xs ++ ']' :: r) = false := by
  cases xs <;> rfl

/-! ## Codec lemmas: fuel monotonicity of the value parser -/

theorem parseMembers_succ (f : Nat) (s : List Char) :
    parseMembers (f + 1) s =
      match skipWs s with
      | [] => Option.none
      | c :: r =>
        if c = '"' then
          match parseStringRest r with
          | Option.none => Option.none
          | some (key, r2) =>
            match skipWs r2 with
            | [] => Option.none
            | c2 :: r3 =>
              if c2 = ':' then
                match parseValue f r3 with
                | Option.none => Option.none
                | some (v, r4) =>
                  match skipWs r4 with
                  | [] => Option.none
                  | c3 :: r5 =>
                    if c3 = ',' then
                      (parseMembers f r5).map fun p => ((key, v) :: p.1, p.2)
                    else if c3 = '}' then some ([(key, v)], r5)
                    else Option.none
              else Option.none
        else Option.none := rfl

theorem parseElements_succ (f : Nat) (s : List Char) :
    parseElements (f + 1) s =
      match parseValue f s with
      | Option.none => Option.none
      | some (v, r) =>
        match skipWs r with
        | [] => Option.none
        | c :: r2 =>
          if c = ',' then (parseElements f r2).map fun p => (v :: p.1, p.2)
          else if c = ']' then some ([v], r2)
          else Option.none := rfl

theorem parse_mono (f : Nat) :
    (∀ s res, parseValue f s = some res → parseValue (f + 1) s = some res) ∧
    (∀ s res, parseMembers f s = some res → parseMembers (f + 1) s = some res) ∧
    (∀ s res, parseElements f s = some res → parseElements (f + 1) s = some res) := by
  induction f with
  | zero =>
    refine ⟨?_, ?_, ?_⟩ <;> intro s res h <;> exact Option.noConfusion h
  | succ f ih =>
    obtain ⟨ihV, ihM, ihE⟩ := ih
    refine ⟨?_, ?_, ?_⟩
    · intro s res h
      cases hs : skipWs s with
      | nil =>
        simp only [parseValue, hs] at h
        exact Option.noConfusion h
      | cons c r =>
        simp only [parseValue, hs] at h ⊢
        by_cases h1 : c = '{'
        · simp only [if_pos h1] at h ⊢
          cases hs2 : skipWs r with
          | nil =>
            simp only [hs2] at h
            exact Option.noConfusion h
          | cons c2 r2 =>
            simp only [hs2] at h ⊢
            by_cases h2 : c2 = '}'
            · simp only [if_pos h2] at h ⊢
              exact h
            · simp only [if_neg h2] at h ⊢
              cases hm : parseMembers f (c2 :: r2) with
              | none =>
                rw [hm] at h
                exact Option.noConfusion h
              | some p =>
                rw [hm] at h
                rw [ihM _ _ hm]
                exact h
        · by_cases h2 : c = '['
          · simp only [if_neg h1, if_pos h2] at h ⊢
            cases hs2 : skipWs r with
            | nil =>
              simp only [hs2] at h
              exact Option.noConfusion h
            | cons c2 r2 =>
              simp only [hs2] at h ⊢
              by_cases h3 : c2 = ']'
              · simp only [if_pos h3] at h ⊢
                exact h
              · simp only [if_neg h3] at h ⊢
                cases he : parseElements f (c2 :: r2) with
                | none =>
                  rw [he] at h
                  exact Option.noConfusion h
                | some p =>
                  rw [he] at h
                  rw [ihE _ _ he]
                  exact h
          · simp only [if_neg h1, if_neg h2] at h ⊢
            exact h
    · intro s res h
      rw [parseMembers_succ] at h
      rw [parseMembers_succ]
      cases hs : skipWs s with
      | nil =>
        simp only [hs] at h
        exact Option.noConfusion h
      | cons c r =>
        simp only [hs] at h ⊢
        by_cases h1 : c = '"'
        · simp only [if_pos h1] at h ⊢
          cases hstr : parseStringRest r with
          | none =>
            simp only [hstr] at h
            exact Option.noConfusion h
          | some kp =>
            obtain ⟨key, r2⟩ := kp
            simp only [hstr] at h ⊢
            cases hs2 : skipWs r2 with
            | nil =>
              simp only [hs2] at h
              exact Option.noConfusion h
            | cons c2 r3 =>
              simp only [hs2] at h ⊢
              by_cases h2 : c2 = ':'
              · simp only [if_pos h2] at h ⊢
                cases hv : parseValue f r3 with
                | none =>
                  simp only [hv] at h
                  exact Option.noConfusion h
                | some vp =>
                  obtain ⟨v, r4⟩ := vp
                  simp only [hv] at h
                  simp only [ihV _ _ hv]
                  cases hs3 : skipWs r4 with
                  | nil =>
                    simp only [hs3] at h
                    exact Option.noConfusion h
                  | cons c3 r5 =>
                    simp only [hs3] at h ⊢
                    by_cases h3 : c3 = ','
                    · simp only [if_pos h3] at h ⊢
                      cases hm : parseMembers f r5 with
                      | none =>
                        simp only [hm, Option.map_none'] at h
                        exact Option.noConfusion h
                      | some p =>
                        simp only [hm] at h
                        simp only [ihM _ _ hm]
                        exact h
                    · simp only [if_neg h3] at h ⊢
                      exact h
              · simp only [if_neg h2] at h
                exact Option.noConfusion h
        · simp only [if_neg h1] at h
          exact Option.noConfusion h
    · intro s res h
      rw [parseElements_succ] at h
      rw [parseElements_succ]
      cases hv : parseValue f s with
      | none =>
        simp only [hv] at h
        exact Option.noConfusion h
      | some vp =>
        obtain ⟨v, r⟩ := vp
        simp only [hv] at h
        simp only [ihV _ _ hv]
        cases hs : skipWs r with
        | nil =>
          simp only [hs] at h
          exact Option.noConfusion h
        | cons c r2 =>
          simp only [hs] at h ⊢
          by_cases h1 : c = ','
          · simp only [if_pos h1] at h ⊢
            cases he : parseElements f r2 with
            | none =>
              simp only [he, Option.map_none'] at h
              exact Option.noConfusion h
            | some p =>
              simp only [he] at h
              simp only [ihE _ _ he]
              exact h
          · simp only [if_neg h1] at h ⊢
            exact h

theorem parseValue_mono {f g : Nat} (hfg : f ≤ g) (s : List Char)
    (res : Json × List Char) (h : parseValue f s = some res) :
    parseValue g s = some res := by
  induction hfg with
  | refl => exact h
  | step _ ih => exact (parse_mono _).1 _ _ ih

/-! ## Codec lemmas: the round trip -/

theorem parseValue_succ (f : Nat) (s : List Char) :
    parseValue (f + 1) s =
      match skipWs s with
      | [] => Option.none
      | c :: r =>
        if c = '{' then
          match skipWs r with
          | [] => Option.none
          | c2 :: r2 =>
            if c2 = '}' then some (.obj [], r2)
            else (parseMembers f (c2 :: r2)).map fun p => (.obj p.1, p.2)
        else if c = '[' then
          match skipWs r with
          | [] => Option.none
          | c2 :: r2 =>
            if c2 = ']' then some (.arr [], r2)
            else (parseElements f (c2 :: r2)).map fun p => (.arr p.1, p.2)
        else if c = '"' then
          (parseStringRest r).map fun p => (.str p.1, p.2)
        else if c = 't' then
          (stripLitChars ['r', 'u', 'e'] r).map fun r2 => (.bool true, r2)
        else if c = 'f' then
          (stripLitChars ['a', 'l', 's', 'e'] r).map fun r2 => (.bool false, r2)
        else if c = 'n' then
          (stripLitChars ['u', 'l', 'l'] r).map fun r2 => (.null, r2)
        else
          (parseIntTok (c :: r)).map fun p => (.num p.1, p.2) := rfl

theorem skipWs_quote (t : List Char) : skipWs ('"' :: t) = '"' :: t :=
  skipWs_cons _ _ (by decide)

theorem skipWs_colon (t : List Char) : skipWs (':' :: t) = ':' :: t :=
  skipWs_cons _ _ (by decide)

theorem skipWs_comma (t : List Char) : skipWs (',' :: t) = ',' :: t :=
  skipWs_cons _ _ (by decide)

theorem skipWs_rbrace (t : List Char) : skipWs ('}' :: t) = '}' :: t :=
  skipWs_cons _ _ (by decide)

theorem skipWs_rbrack (t : List Char) : skipWs (']' :: t) = ']' :: t :=
  skipWs_cons _ _ (by decide)

theorem skipWs_lbrace (t : List Char) : skipWs ('{' :: t) = '{' :: t :=
  skipWs_cons _ _ (by decide)

theorem skipWs_lbrack (t : List Char) : skipWs ('[' :: t) = '[' :: t :=
  skipWs_cons _ _ (by decide)

theorem parseElements_cons_space (f : Nat) (t : List Char) :
    parseElements f (' ' :: t) = parseElements f t := by
  cases f with
  | zero => rfl
  | succ g =>
    rw [parseElements_succ, parseElements_succ, parseValue_cons_space]

theorem parse_rt (f : Nat) :
    (∀ v r, jsize v ≤ f → (Json.isNumB v = true → headIsDigit r = false) →
      parseValue f (encodeValue v ++ r) = some (v, r)) ∧
    (∀ k v ms r, jsizeM ((k, v) :: ms) ≤ f →
      parseMembers f (encodeMember (k, v) ++ (encodeMembersRest ms ++ '}' :: r)) =
        some ((k, v) :: ms, r)) ∧
    (∀ x xs r, jsizeL (x :: xs) ≤ f →
      parseElements f (encodeValue x ++ (encodeElemsRest xs ++ ']' :: r)) =
        some (x :: xs, r)) := by
  induction f with
  | zero =>
    refine ⟨?_, ?_, ?_⟩
    · intro v r hsz _
      have := jsize_pos v
      omega
    · intro k v ms r hsz
      rw [jsizeM_cons] at hsz
      omega
    · intro x xs r hsz
      rw [jsizeL_cons] at hsz
      omega
  | succ f ih =>
    obtain ⟨ihV, ihM, ihE⟩ := ih
    refine ⟨?_, ?_, ?_⟩
    · intro v r hsz hguard
      cases v with
      | null => rfl
      | bool b => cases b <;> rfl
      | num n =>
        rw [parseValue_succ]
        obtain ⟨c, t, he, hw, hbr1, hbr2, hq, ht, hf2, hn, -⟩ := intChars_head n
        rw [show encodeValue (.num n) = intChars n from rfl, he]
        simp only [List.cons_append]
        rw [skipWs_cons _ _ hw]
        simp only [if_neg hbr1, if_neg hbr2, if_neg hq, if_neg ht, if_neg hf2,
          if_neg hn]
        rw [show c :: (t ++ r) = intChars n ++ r by rw [he, List.cons_append]]
        rw [intChars_spec n r (hguard rfl)]
        rfl
      | str s =>
        rw [parseValue_succ]
        simp only [encodeValue, encodeStringLit, List.cons_append,
          List.append_assoc, List.singleton_append]
        rw [skipWs_cons _ _ (by decide)]
        simp [parseStringRest_rt s r]
      | arr xs =>
        cases xs with
        | nil => rfl
        | cons x xs =>
          rw [parseValue_succ]
          rw [show encodeValue (.arr (x :: xs)) =
            '[' :: ((encodeValue x ++ encodeElemsRest xs) ++ [']']) from rfl]
          simp only [List.cons_append, List.append_assoc, List.singleton_append,
            List.nil_append, skipWs_lbrack]
          simp only [if_true]
          rw [skipWs_encode_append x (encodeElemsRest xs ++ ']' :: r)]
          obtain ⟨c2, t2, he2, hw2, hrb, -⟩ := encodeValue_head x
          simp only [he2, List.cons_append]
          simp only [if_neg hrb]
          rw [show c2 :: (t2 ++ (encodeElemsRest xs ++ ']' :: r)) =
            encodeValue x ++ (encodeElemsRest xs ++ ']' :: r) by
              rw [he2, List.cons_append]]
          rw [ihE x xs r (by rw [show jsize (Json.arr (x :: xs)) =
            1 + jsizeL (x :: xs) from rfl] at hsz; omega)]
          rfl
      | obj ms =>
        cases ms with
        | nil => rfl
        | cons m ms =>
          obtain ⟨k, v⟩ := m
          rw [parseValue_succ]
          rw [show encodeValue (.obj ((k, v) :: ms)) =
            '{' :: ((encodeMember (k, v) ++ encodeMembersRest ms) ++ ['}'])
            from rfl]
          simp only [List.cons_append, List.append_assoc, List.singleton_append,
            List.nil_append, skipWs_lbrace]
          simp only [if_true]
          simp only [show encodeMember (k, v) ++ (encodeMembersRest ms ++ '}' :: r) =
            '"' :: (escapeString k ++ ('"' :: ':' :: ' ' ::
              (encodeValue v ++ (encodeMembersRest ms ++ '}' :: r)))) by
              simp [encodeMember, encodeStringLit], skipWs_quote]
          rw [if_neg (by decide : ¬ ('"' : Char) = '}')]
          rw [show ('"' :: (escapeString k ++ ('"' :: ':' :: ' ' ::
              (encodeValue v ++ (encodeMembersRest ms ++ '}' :: r))))) =
            encodeMember (k, v) ++ (encodeMembersRest ms ++ '}' :: r) by
              simp [encodeMember, encodeStringLit]]
          rw [ihM k v ms r (by rw [show jsize (Json.obj ((k, v) :: ms)) =
            1 + jsizeM ((k, v) :: ms) from rfl] at hsz; omega)]
          rfl
    · intro k v ms r hsz
      rw [jsizeM_cons] at hsz
      rw [parseMembers_succ]
      rw [show encodeMember (k, v) ++ (encodeMembersRest ms ++ '}' :: r) =
        '"' :: (escapeString k ++ ('"' :: ':' :: ' ' ::
          (encodeValue v ++ (encodeMembersRest ms ++ '}' :: r)))) by
          simp [encodeMember, encodeStringLit]]
      rw [skipWs_quote]
      simp only [if_pos (rfl : ('"' : Char) = '"')]
      simp only [parseStringRest_rt k (':' :: ' ' ::
        (encodeValue v ++ (encodeMembersRest ms ++ '}' :: r)))]
      rw [skipWs_colon]
      simp only [if_pos (rfl : (':' : Char) = ':')]
      rw [parseValue_cons_space]
      simp only [ihV v (encodeMembersRest ms ++ '}' :: r) (by omega)
        (fun _ => headIsDigit_membersRest ms r)]
      cases ms with
      | nil =>
        simp [encodeMembersRest, skipWs_rbrace]
      | cons m2 ms2 =>
        obtain ⟨k2, v2⟩ := m2
        rw [show encodeMembersRest ((k2, v2) :: ms2) ++ '}' :: r =
          ',' :: ' ' :: (encodeMember (k2, v2) ++
            (encodeMembersRest ms2 ++ '}' :: r)) by
            simp [encodeMembersRest]]
        simp [skipWs_comma, parseMembers_cons_space,
          ihM k2 v2 ms2 r (by rw [jsizeM_cons] at hsz ⊢; omega)]
    · intro x xs r hsz
      rw [jsizeL_cons] at hsz
      rw [parseElements_succ]
      simp only [ihV x (encodeElemsRest xs ++ ']' :: r) (by omega)
        (fun _ => headIsDigit_elemsRest xs r)]
      cases xs with
      | nil =>
        simp [encodeElemsRest, skipWs_rbrack]
      | cons x2 xs2 =>
        rw [show encodeElemsRest (x2 :: xs2) ++ ']' :: r =
          ',' :: ' ' :: (encodeValue x2 ++
            (encodeElemsRest xs2 ++ ']' :: r)) by
            simp [encodeElemsRest]]
        simp [skipWs_comma, parseElements_cons_space,
          ihE x2 xs2 r (by rw [jsizeL_cons] at hsz ⊢; omega)]


theorem parseValue_nil (f : Nat) : parseValue f [] = Option.none := by
  cases f <;> rfl

theorem parseMembers_nil (f : Nat) : parseMembers f [] = Option.none := by
  cases f <;> rfl

theorem parseElements_nil (f : Nat) : parseElements f [] = Option.none := by
  cases f with
  | zero => rfl
  | succ g => rw [parseElements_succ, parseValue_nil]

theorem parseDigitsAux_all (l : List Char) (hl : ∀ c ∈ l, c.isDigit = true)
    (acc : Nat) : ∃ m, parseDigitsAux acc l = (m, []) := by
  induction l generalizing acc with
  | nil => exact ⟨acc, rfl⟩
  | cons c t ih =>
    have hc := hl c (by simp)
    obtain ⟨m, hm⟩ := ih (fun d hd => hl d (by simp [hd])) (acc * 10 + (c.toNat - 48))
    exact ⟨m, by simp [parseDigitsAux, hc, hm]⟩

theorem natTok_cut (n : Nat) (p q : List Char) (he : natChars n = p ++ q)
    (hq : q ≠ []) (hp : p ≠ []) : ∃ m, parseNatTok p = some (m, []) := by
  by_cases h0 : n = 0
  · exfalso
    subst h0
    rw [natChars, if_pos rfl] at he
    have h1 := len_pos_of_ne_nil hp
    have h2 := len_pos_of_ne_nil hq
    have hlen := congrArg List.length he
    simp only [List.length_append, List.length_cons, List.length_nil] at hlen
    omega
  · have hne : Nat.digits 10 n ≠ [] := Nat.digits_ne_nil_iff_ne_zero.mpr h0
    have hrne : (Nat.digits 10 n).reverse ≠ [] := by simpa using hne
    cases hh : (Nat.digits 10 n).reverse with
    | nil => exact absurd hh hrne
    | cons d ds =>
      have hd10 : d < 10 := Nat.digits_lt_base (by norm_num)
        (by rw [← List.mem_reverse, hh]; simp)
      have hd0 : d ≠ 0 := by
        have hgl := Nat.getLast_digit_ne_zero 10 h0
        have hdig : Nat.digits 10 n = ds.reverse ++ [d] := by
          have h5 := congrArg List.reverse hh
          simpa using h5
        have h3 : (Nat.digits 10 n).getLast? = some d := by
          rw [hdig]
          simp
        rw [List.getLast?_eq_getLast _ hne] at h3
        rw [← Option.some.inj h3]
        exact hgl
      have hnc : natChars n =
          Char.ofNat (48 + d) :: ds.map fun x => Char.ofNat (48 + x) := by
        simp [natChars, h0, hh]
      rw [hnc] at he
      rcases p with _ | ⟨c0, p1⟩
      · exact absurd rfl hp
      · simp only [List.cons_append, List.cons.injEq] at he
        obtain ⟨rfl, ht⟩ := he
        obtain ⟨hdig, htn, hws, hzero, -⟩ := digit_char_facts d hd10
        have hall : ∀ c ∈ p1, c.isDigit = true := by
          intro c hc
          have hmem : c ∈ ds.map fun x => Char.ofNat (48 + x) := by
            rw [ht]
            exact List.mem_append_left _ hc
          simp only [List.mem_map] at hmem
          obtain ⟨e, hein, rfl⟩ := hmem
          have he10 : e < 10 := Nat.digits_lt_base (by norm_num)
            (by rw [← List.mem_reverse, hh]; simp [hein])
          exact (digit_char_facts e he10).1
        obtain ⟨m, hm⟩ := parseDigitsAux_all p1 hall ((Char.ofNat (48 + d)).toNat - 48)
        have hc0 : ¬(Char.ofNat (48 + d) = '0') := fun hcc => hd0 (hzero.mp hcc)
        exact ⟨m, by simp [parseNatTok, hc0, hdig, hm]⟩

theorem intTok_cut (n : Int) (p q : List Char) (he : intChars n = p ++ q)
    (hq : q ≠ []) (hp : p ≠ []) :
    parseIntTok p = Option.none ∨ ∃ m : Int, parseIntTok p = some (m, []) := by
  by_cases hneg : n < 0
  · rw [intChars, if_pos hneg] at he
    rcases p with _ | ⟨c0, p1⟩
    · exact absurd rfl hp
    · simp only [List.cons_append, List.cons.injEq] at he
      obtain ⟨rfl, ht⟩ := he
      rcases Classical.em (p1 = []) with rfl | hp1
      · left
        rfl
      · obtain ⟨m, hm⟩ := natTok_cut n.natAbs p1 q ht hq hp1
        right
        exact ⟨-(m : Int), by simp [parseIntTok, hm]⟩
  · rw [intChars, if_neg hneg] at he
    obtain ⟨m, hm⟩ := natTok_cut n.natAbs p q he hq hp
    right
    rcases p with _ | ⟨c0, p1⟩
    · exact absurd rfl hp
    · obtain ⟨d, t, hnc, hd10⟩ := natChars_head n.natAbs
      rw [hnc] at he
      simp only [List.cons_append, List.cons.injEq] at he
      obtain ⟨rfl, -⟩ := he
      have hdash : ¬(Char.ofNat (48 + d) = '-') := by
        intro hcc
        have h45 : (Char.ofNat (48 + d)).toNat = 45 := by rw [hcc]; rfl
        rw [(digit_char_facts d hd10).2.1] at h45
        omega
      exact ⟨(m : Int), by simp [parseIntTok, hdash, hm]⟩


theorem parseValue_det_encode (f : Nat) (v : Json) (t : List Char)
    (res : Json × List Char)
    (hguard : Json.isNumB v = true → headIsDigit t = false)
    (h : parseValue f (encodeValue v ++ t) = some res) : res = (v, t) := by
  have h1 := parseValue_mono (Nat.le_max_left f (jsize v)) _ _ h
  have h2 := (parse_rt (max f (jsize v))).1 v t (Nat.le_max_right f (jsize v)) hguard
  rw [h1] at h2
  exact Option.some.inj h2

theorem headIsDigit_member_pre (ms : List (List Char × Json)) (a q : List Char)
    (he : a ++ q = encodeMembersRest ms ++ ['}']) : headIsDigit a = false := by
  cases a with
  | nil => rfl
  | cons c t =>
    cases ms with
    | nil =>
      simp only [encodeMembersRest, List.nil_append, List.cons_append,
        List.cons.injEq] at he
      obtain ⟨rfl, -⟩ := he
      rfl
    | cons m2 ms2 =>
      obtain ⟨k2, v2⟩ := m2
      simp only [encodeMembersRest, List.cons_append, List.cons.injEq] at he
      obtain ⟨rfl, -⟩ := he
      rfl

theorem headIsDigit_elem_pre (xs : List Json) (a q : List Char)
    (he : a ++ q = encodeElemsRest xs ++ [']']) : headIsDigit a = false := by
  cases a with
  | nil => rfl
  | cons c t =>
    cases xs with
    | nil =>
      simp only [encodeElemsRest, List.nil_append, List.cons_append,
        List.cons.injEq] at he
      obtain ⟨rfl, -⟩ := he
      rfl
    | cons x2 xs2 =>
      simp only [encodeElemsRest, List.cons_append, List.cons.injEq] at he
      obtain ⟨rfl, -⟩ := he
      rfl

theorem parse_cut (f : Nat) :
    (∀ v p q, encodeValue v = p ++ q → q ≠ [] →
      parseValue f p = Option.none ∨
        (Json.isNumB v = true ∧ ∃ m : Int, parseValue f p = some (.num m, []))) ∧
    (∀ k v ms p q,
      encodeMember (k, v) ++ (encodeMembersRest ms ++ ['}']) = p ++ q → q ≠ [] →
      parseMembers f p = Option.none) ∧
    (∀ x xs p q,
      encodeValue x ++ (encodeElemsRest xs ++ [']']) = p ++ q → q ≠ [] →
      parseElements f p = Option.none) := by
  induction f with
  | zero =>
    exact ⟨fun v p q _ _ => Or.inl rfl, fun _ _ _ _ _ _ _ => rfl,
      fun _ _ _ _ _ _ => rfl⟩
  | succ f ih =>
    obtain ⟨ihV, ihM, ihE⟩ := ih
    refine ⟨?_, ?_, ?_⟩
    · intro v p q he hq
      cases v with
      | null =>
        left
        replace he : (['n', 'u', 'l', 'l'] : List Char) = p ++ q := he
        rcases p with _ | ⟨a1, _ | ⟨a2, _ | ⟨a3, _ | ⟨a4, p4⟩⟩⟩⟩
        · exact parseValue_nil _
        · simp only [List.cons_append, List.nil_append, List.cons.injEq] at he
          obtain ⟨rfl, -⟩ := he
          rfl
        · simp only [List.cons_append, List.nil_append, List.cons.injEq] at he
          obtain ⟨rfl, rfl, -⟩ := he
          rfl
        · simp only [List.cons_append, List.nil_append, List.cons.injEq] at he
          obtain ⟨rfl, rfl, rfl, -⟩ := he
          rfl
        · simp only [List.cons_append, List.cons.injEq] at he
          obtain ⟨-, -, -, -, hnil⟩ := he
          obtain ⟨-, rfl⟩ := List.append_eq_nil.mp hnil.symm
          exact absurd rfl hq
      | bool b =>
        left
        cases b with
        | true =>
          replace he : (['t', 'r', 'u', 'e'] : List Char) = p ++ q := he
          rcases p with _ | ⟨a1, _ | ⟨a2, _ | ⟨a3, _ | ⟨a4, p4⟩⟩⟩⟩
          · exact parseValue_nil _
          · simp only [List.cons_append, List.nil_append, List.cons.injEq] at he
            obtain ⟨rfl, -⟩ := he
            rfl
          · simp only [List.cons_append, List.nil_append, List.cons.injEq] at he
            obtain ⟨rfl, rfl, -⟩ := he
            rfl
          · simp only [List.cons_append, List.nil_append, List.cons.injEq] at he
            obtain ⟨rfl, rfl, rfl, -⟩ := he
            rfl
          · simp only [List.cons_append, List.cons.injEq] at he
            obtain ⟨-, -, -, -, hnil⟩ := he
            obtain ⟨-, rfl⟩ := List.append_eq_nil.mp hnil.symm
            exact absurd rfl hq
        | false =>
          replace he : (['f', 'a', 'l', 's', 'e'] : List Char) = p ++ q := he
          rcases p with _ | ⟨a1, _ | ⟨a2, _ | ⟨a3, _ | ⟨a4, _ | ⟨a5, p5⟩⟩⟩⟩⟩
          · exact parseValue_nil _
          · simp only [List.cons_append, List.nil_append, List.cons.injEq] at he
            obtain ⟨rfl, -⟩ := he
            rfl
          · simp only [List.cons_append, List.nil_append, List.cons.injEq] at he
            obtain ⟨rfl, rfl, -⟩ := he
            rfl
          · simp only [List.cons_append, List.nil_append, List.cons.injEq] at he
            obtain ⟨rfl, rfl, rfl, -⟩ := he
            rfl
          · simp only [List.cons_append, List.nil_append, List.cons.injEq] at he
            obtain ⟨rfl, rfl, rfl, rfl, -⟩ := he
            rfl
          · simp only [List.cons_append, List.cons.injEq] at he
            obtain ⟨-, -, -, -, -, hnil⟩ := he
            obtain ⟨-, rfl⟩ := List.append_eq_nil.mp hnil.symm
            exact absurd rfl hq
      | num n =>
        rcases p with _ | ⟨c0, p1⟩
        · exact Or.inl (parseValue_nil _)
        · obtain ⟨ch, t0, he0, hw0, hd1, hd2, hd3, hd4, hd5, hd6, -⟩ :=
            intChars_head n
          replace he : intChars n = c0 :: p1 ++ q := he
          rw [he0] at he
          simp only [List.cons_append, List.cons.injEq] at he
          obtain ⟨rfl, ht⟩ := he
          have hic : intChars n = (ch :: p1) ++ q := by
            rw [he0, List.cons_append, ht]
          have hcut := intTok_cut n (ch :: p1) q hic hq (by simp)
          rcases hcut with hnone | ⟨m, hsome⟩
          · left
            rw [parseValue_succ]
            rw [show skipWs (ch :: p1) = ch :: p1 from skipWs_cons _ _ hw0]
            simp only [if_neg hd1, if_neg hd2, if_neg hd3, if_neg hd4,
              if_neg hd5, if_neg hd6, hnone, Option.map_none']
          · right
            refine ⟨rfl, m, ?_⟩
            rw [parseValue_succ]
            rw [show skipWs (ch :: p1) = ch :: p1 from skipWs_cons _ _ hw0]
            simp only [if_neg hd1, if_neg hd2, if_neg hd3, if_neg hd4,
              if_neg hd5, if_neg hd6, hsome, Option.map_some']
      | str s =>
        left
        rcases p with _ | ⟨c0, p1⟩
        · exact parseValue_nil _
        · replace he : '"' :: (escapeString s ++ ['"']) = c0 :: p1 ++ q := he
          simp only [List.cons_append, List.cons.injEq] at he
          obtain ⟨rfl, ht⟩ := he
          have hsr : parseStringRest p1 = Option.none :=
            parseStringRestF_cut s p1 q (p1.length + 1) ht hq
          rw [parseValue_succ]
          rw [show skipWs ('"' :: p1) = '"' :: p1 from skipWs_quote p1]
          simp only [if_neg (show ¬('"' : Char) = '{' by decide),
            if_neg (show ¬('"' : Char) = '[' by decide),
            if_pos (show ('"' : Char) = '"' from rfl), if_true, hsr,
            Option.map_none']
      | arr xs =>
        left
        cases xs with
        | nil =>
          replace he : (['[', ']'] : List Char) = p ++ q := he
          rcases p with _ | ⟨a1, _ | ⟨a2, p2⟩⟩
          · exact parseValue_nil _
          · simp only [List.cons_append, List.nil_append, List.cons.injEq] at he
            obtain ⟨rfl, -⟩ := he
            rfl
          · simp only [List.cons_append, List.cons.injEq] at he
            obtain ⟨-, -, hnil⟩ := he
            obtain ⟨-, rfl⟩ := List.append_eq_nil.mp hnil.symm
            exact absurd rfl hq
        | cons x xs =>
          have hE : encodeValue (.arr (x :: xs)) =
              '[' :: (encodeValue x ++ (encodeElemsRest xs ++ [']'])) := by
            rw [show encodeValue (.arr (x :: xs)) =
              '[' :: ((encodeValue x ++ encodeElemsRest xs) ++ [']']) from rfl,
              List.append_assoc]
          rw [hE] at he
          rcases p with _ | ⟨a1, p1⟩
          · exact parseValue_nil _
          simp only [List.cons_append, List.cons.injEq] at he
          obtain ⟨rfl, ht⟩ := he
          rw [parseValue_succ]
          simp only [skipWs_lbrack, if_true]
          rcases p1 with _ | ⟨cc, p2⟩
          · rfl
          obtain ⟨ch, t2, he2, hw2, hrb, -⟩ := encodeValue_head x
          rw [he2] at ht
          simp only [List.cons_append, List.cons.injEq] at ht
          obtain ⟨rfl, ht2⟩ := ht
          simp only [skipWs_cons _ _ hw2, if_neg hrb]
          have harg : encodeValue x ++ (encodeElemsRest xs ++ [']']) =
              (ch :: p2) ++ q := by
            rw [he2]
            simp only [List.cons_append, List.cons.injEq]
            exact ⟨trivial, ht2⟩
          rw [ihE x xs (ch :: p2) q harg hq]
          rfl
      | obj ms =>
        left
        cases ms with
        | nil =>
          replace he : (['{', '}'] : List Char) = p ++ q := he
          rcases p with _ | ⟨a1, _ | ⟨a2, p2⟩⟩
          · exact parseValue_nil _
          · simp only [List.cons_append, List.nil_append, List.cons.injEq] at he
            obtain ⟨rfl, -⟩ := he
            rfl
          · simp only [List.cons_append, List.cons.injEq] at he
            obtain ⟨-, -, hnil⟩ := he
            obtain ⟨-, rfl⟩ := List.append_eq_nil.mp hnil.symm
            exact absurd rfl hq
        | cons m ms =>
          obtain ⟨k, v⟩ := m
          have hE : encodeValue (.obj ((k, v) :: ms)) =
              '{' :: (encodeMember (k, v) ++ (encodeMembersRest ms ++ ['}'])) := by
            rw [show encodeValue (.obj ((k, v) :: ms)) =
              '{' :: ((encodeMember (k, v) ++ encodeMembersRest ms) ++ ['}'])
              from rfl, List.append_assoc]
          rw [hE] at he
          rcases p with _ | ⟨a1, p1⟩
          · exact parseValue_nil _
          simp only [List.cons_append, List.cons.injEq] at he
          obtain ⟨rfl, ht⟩ := he
          rw [parseValue_succ]
          simp only [skipWs_lbrace, if_true]
          rcases p1 with _ | ⟨cc, p2⟩
          · rfl
          have hm : encodeMember (k, v) ++ (encodeMembersRest ms ++ ['}']) =
              '"' :: (escapeString k ++ ('"' :: ':' :: ' ' ::
                (encodeValue v ++ (encodeMembersRest ms ++ ['}'])))) := by
            simp [encodeMember, encodeStringLit]
          rw [hm] at ht
          simp only [List.cons_append, List.cons.injEq] at ht
          obtain ⟨rfl, ht2⟩ := ht
          simp only [skipWs_quote, if_neg (show ¬('"' : Char) = '}' by decide)]
          have harg : encodeMember (k, v) ++ (encodeMembersRest ms ++ ['}']) =
              ('"' :: p2) ++ q := by
            rw [hm]
            simp only [List.cons_append, List.cons.injEq]
            exact ⟨trivial, ht2⟩
          rw [ihM k v ms ('"' :: p2) q harg hq]
          rfl
    · intro k v ms p q he hq
      have hm0 : encodeMember (k, v) ++ (encodeMembersRest ms ++ ['}']) =
          '"' :: (escapeString k ++ ('"' :: ':' :: ' ' ::
            (encodeValue v ++ (encodeMembersRest ms ++ ['}'])))) := by
        simp [encodeMember, encodeStringLit]
      rw [hm0] at he
      rcases p with _ | ⟨a1, p1⟩
      · exact parseMembers_nil _
      simp only [List.cons_append, List.cons.injEq] at he
      obtain ⟨rfl, ht⟩ := he
      rw [parseMembers_succ]
      simp only [skipWs_quote, if_true]
      have ht' : (escapeString k ++ ['"']) ++ (':' :: ' ' ::
          (encodeValue v ++ (encodeMembersRest ms ++ ['}']))) = p1 ++ q := by
        rw [← ht]
        simp
      rcases List.append_eq_append_iff.mp ht' with ⟨a2, ha2, hrest⟩ | ⟨c2, hc2, hq2⟩
      · have hsr : parseStringRest p1 = some (k, a2) := by
          rw [ha2, show (escapeString k ++ ['"']) ++ a2 =
            escapeString k ++ '"' :: a2 by simp]
          exact parseStringRest_rt k a2
        rcases a2 with _ | ⟨d1, a3⟩
        · simp only [hsr]
          rfl
        · simp only [List.cons_append, List.cons.injEq] at hrest
          obtain ⟨rfl, hrest2⟩ := hrest
          simp only [hsr, skipWs_colon, if_true]
          rcases a3 with _ | ⟨d2, a4⟩
          · simp only [parseValue_nil]
          · simp only [List.cons_append, List.cons.injEq] at hrest2
            obtain ⟨rfl, hrest3⟩ := hrest2
            simp only [parseValue_cons_space]
            rcases List.append_eq_append_iff.mp hrest3 with
              ⟨b1, hb1, hb2⟩ | ⟨c1, hc1, hc2v⟩
            · subst hb1
              cases hpv : parseValue f (encodeValue v ++ b1) with
              | none => rfl
              | some res =>
                obtain ⟨v2, r4⟩ := res
                have hdet := parseValue_det_encode f v b1 (v2, r4)
                  (fun _ => headIsDigit_member_pre ms b1 q hb2.symm) hpv
                rw [Prod.mk.injEq] at hdet
                obtain ⟨rfl, hr⟩ := hdet
                rw [hr]
                rcases b1 with _ | ⟨e1, b2⟩
                · rfl
                · cases ms with
                  | nil =>
                    exfalso
                    simp only [encodeMembersRest, List.nil_append,
                      List.cons_append, List.cons.injEq] at hb2
                    obtain ⟨-, hnil⟩ := hb2
                    obtain ⟨-, rfl⟩ := List.append_eq_nil.mp hnil.symm
                    exact hq rfl
                  | cons m2 ms2 =>
                    obtain ⟨k2, w2⟩ := m2
                    have hm2 : encodeMembersRest ((k2, w2) :: ms2) ++ ['}'] =
                        ',' :: ' ' :: (encodeMember (k2, w2) ++
                          (encodeMembersRest ms2 ++ ['}'])) := by
                      simp [encodeMembersRest]
                    rw [hm2] at hb2
                    simp only [List.cons_append, List.cons.injEq] at hb2
                    obtain ⟨rfl, hb3⟩ := hb2
                    simp only [skipWs_comma, if_true]
                    rcases b2 with _ | ⟨e2, b3⟩
                    · simp only [parseMembers_nil, Option.map_none']
                    · simp only [List.cons_append, List.cons.injEq] at hb3
                      obtain ⟨rfl, hb4⟩ := hb3
                      rw [parseMembers_cons_space, ihM k2 w2 ms2 b3 q hb4 hq]
                      rfl
            · rcases Classical.em (c1 = []) with rfl | hc1ne
              · rw [List.append_nil] at hc1
                cases hpv : parseValue f a4 with
                | none => rfl
                | some res =>
                  obtain ⟨v2, r4⟩ := res
                  have hpv2 : parseValue f (encodeValue v ++ []) = some (v2, r4) := by
                    rw [List.append_nil, hc1]
                    exact hpv
                  have hdet := parseValue_det_encode f v [] (v2, r4)
                    (fun _ => rfl) hpv2
                  rw [Prod.mk.injEq] at hdet
                  obtain ⟨rfl, rfl⟩ := hdet
                  rfl
              · rcases ihV v a4 c1 hc1 hc1ne with hnone | ⟨-, m, hsome⟩
                · simp only [hnone]
                · simp only [hsome]
                  rfl
      · rcases Classical.em (c2 = []) with rfl | hc2ne
        · rw [List.append_nil] at hc2
          have hsr : parseStringRest p1 = some (k, []) := by
            rw [← hc2, show escapeString k ++ ['"'] =
              escapeString k ++ '"' :: [] from rfl]
            exact parseStringRest_rt k []
          simp only [hsr]
          rfl
        · have hsr : parseStringRest p1 = Option.none :=
            parseStringRestF_cut k p1 c2 (p1.length + 1) hc2 hc2ne
          simp only [hsr]
    · intro x xs p q he hq
      rw [parseElements_succ]
      rcases List.append_eq_append_iff.mp he with ⟨b1, hb1, hb2⟩ | ⟨c1, hc1, hc2⟩
      · subst hb1
        cases hpv : parseValue f (encodeValue x ++ b1) with
        | none => rfl
        | some res =>
          obtain ⟨v2, r4⟩ := res
          have hdet := parseValue_det_encode f x b1 (v2, r4)
            (fun _ => headIsDigit_elem_pre xs b1 q hb2.symm) hpv
          rw [Prod.mk.injEq] at hdet
          obtain ⟨rfl, hr⟩ := hdet
          rw [hr]
          rcases b1 with _ | ⟨e1, b2⟩
          · rfl
          · cases xs with
            | nil =>
              exfalso
              simp only [encodeElemsRest, List.nil_append, List.cons_append,
                List.cons.injEq] at hb2
              obtain ⟨-, hnil⟩ := hb2
              obtain ⟨-, rfl⟩ := List.append_eq_nil.mp hnil.symm
              exact hq rfl
            | cons x2 xs2 =>
              have hx2 : encodeElemsRest (x2 :: xs2) ++ [']'] =
                  ',' :: ' ' :: (encodeValue x2 ++
                    (encodeElemsRest xs2 ++ [']'])) := by
                simp [encodeElemsRest]
              rw [hx2] at hb2
              simp only [List.cons_append, List.cons.injEq] at hb2
              obtain ⟨rfl, hb3⟩ := hb2
              simp only [skipWs_comma, if_true]
              rcases b2 with _ | ⟨e2, b3⟩
              · simp only [parseElements_nil, Option.map_none']
              · simp only [List.cons_append, List.cons.injEq] at hb3
                obtain ⟨rfl, hb4⟩ := hb3
                rw [parseElements_cons_space, ihE x2 xs2 b3 q hb4 hq]
                rfl
      · rcases Classical.em (c1 = []) with rfl | hc1ne
        · rw [List.append_nil] at hc1
          cases hpv : parseValue f p with
          | none => rfl
          | some res =>
            obtain ⟨v2, r4⟩ := res
            have hpv2 : parseValue f (encodeValue x ++ []) = some (v2, r4) := by
              rw [List.append_nil, hc1]
              exact hpv
            have hdet := parseValue_det_encode f x [] (v2, r4)
              (fun _ => rfl) hpv2
            rw [Prod.mk.injEq] at hdet
            obtain ⟨rfl, rfl⟩ := hdet
            rfl
        · rcases ihV x p c1 hc1 hc1ne with hnone | ⟨-, m, hsome⟩
          · simp only [hnone]
          · simp only [hsome]
            rfl


theorem encode_jsize_le (f : Nat) :
    (∀ v, jsize v ≤ f → jsize v ≤ (encodeValue v).length) ∧
    (∀ xs, jsizeL xs ≤ f → jsizeL xs ≤ (encodeElemsRest xs).length) ∧
    (∀ ms, jsizeM ms ≤ f → jsizeM ms ≤ (encodeMembersRest ms).length) := by
  induction f with
  | zero =>
    refine ⟨?_, ?_, ?_⟩
    · intro v h
      have := jsize_pos v
      omega
    · intro xs h
      cases xs with
      | nil => simp [jsizeL, encodeElemsRest]
      | cons x xs =>
        rw [jsizeL_cons] at h
        have := jsize_pos x
        omega
    · intro ms h
      cases ms with
      | nil => simp [jsizeM, encodeMembersRest]
      | cons m ms =>
        obtain ⟨k, v⟩ := m
        rw [jsizeM_cons] at h
        have := jsize_pos v
        omega
  | succ f ih =>
    obtain ⟨ihV, ihL, ihM⟩ := ih
    refine ⟨?_, ?_, ?_⟩
    · intro v hf
      cases v with
      | null => decide
      | bool b => cases b <;> decide
      | num n =>
        obtain ⟨c, t, he0, -⟩ := intChars_head n
        rw [show jsize (.num n) = 1 from rfl,
          show encodeValue (.num n) = intChars n from rfl, he0]
        simp
      | str s =>
        rw [show jsize (.str s) = 1 from rfl,
          show encodeValue (.str s) = encodeStringLit s from rfl]
        simp only [encodeStringLit, List.length_cons, List.length_append]
        omega
      | arr xs =>
        cases xs with
        | nil => decide
        | cons x xs =>
          rw [show jsize (.arr (x :: xs)) = 1 + jsizeL (x :: xs) from rfl] at hf ⊢
          rw [jsizeL_cons] at hf ⊢
          have hp := jsize_pos x
          have h1 := ihV x (by omega)
          have h2 := ihL xs (by omega)
          rw [show encodeValue (.arr (x :: xs)) =
            '[' :: ((encodeValue x ++ encodeElemsRest xs) ++ [']']) from rfl]
          simp only [List.length_cons, List.length_append]
          omega
      | obj ms =>
        cases ms with
        | nil => decide
        | cons m ms =>
          obtain ⟨k, v⟩ := m
          rw [show jsize (.obj ((k, v) :: ms)) = 1 + jsizeM ((k, v) :: ms)
            from rfl] at hf ⊢
          rw [jsizeM_cons] at hf ⊢
          have hp := jsize_pos v
          have h1 := ihV v (by omega)
          have h2 := ihM ms (by omega)
          rw [show encodeValue (.obj ((k, v) :: ms)) =
            '{' :: ((encodeMember (k, v) ++ encodeMembersRest ms) ++ ['}'])
            from rfl]
          simp only [List.length_cons, List.length_append, encodeMember,
            encodeStringLit]
          omega
    · intro xs hf
      cases xs with
      | nil => simp [jsizeL, encodeElemsRest]
      | cons x xs =>
        rw [jsizeL_cons] at hf ⊢
        have hp := jsize_pos x
        have h1 := ihV x (by omega)
        have h2 := ihL xs (by omega)
        rw [show encodeElemsRest (x :: xs) =
          ',' :: ' ' :: (encodeValue x ++ encodeElemsRest xs) from rfl]
        simp only [List.length_cons, List.length_append]
        omega
    · intro ms hf
      cases ms with
      | nil => simp [jsizeM, encodeMembersRest]
      | cons m ms =>
        obtain ⟨k, v⟩ := m
        rw [jsizeM_cons] at hf ⊢
        have hp := jsize_pos v
        have h1 := ihV v (by omega)
        have h2 := ihM ms (by omega)
        rw [show encodeMembersRest ((k, v) :: ms) =
          ',' :: ' ' :: (encodeMember (k, v) ++ encodeMembersRest ms) from rfl]
        simp only [List.length_cons, List.length_append, encodeMember,
          encodeStringLit]
        omega

theorem jsize_le_encode (v : Json) : jsize v ≤ (encodeValue v).length :=
  (encode_jsize_le (jsize v)).1 v le_rfl

theorem loads_encode (v : Json) : loads (encodeValue v) = some v := by
  have h1 := (parse_rt (jsize v)).1 v [] le_rfl (fun _ => rfl)
  rw [List.append_nil] at h1
  have h2 := parseValue_mono (show jsize v ≤ (encodeValue v).length + 1 by
    have := jsize_le_encode v
    omega) _ _ h1
  unfold loads
  simp only [h2]
  rfl

theorem loads_cut (v : Json) (p q : List Char) (hnum : Json.isNumB v = false)
    (he : encodeValue v = p ++ q) (hqe : q ≠ []) : loads p = Option.none := by
  rcases (parse_cut (p.length + 1)).1 v p q he hqe with hnone | ⟨hn, -⟩
  · unfold loads
    simp only [hnone]
  · rw [hn] at hnum
    exact Bool.noConfusion hnum

theorem accumLoop_cons (buffer c : List Char) (rest : List (List Char)) :
    accumLoop buffer (c :: rest) =
      if c.isEmpty then Option.none
      else
        match loads (buffer ++ c) with
        | some v => some v
        | Option.none => accumLoop (buffer ++ c) rest := rfl

theorem receiveLoop_data (acc : List Char) (b : Char) (bs : List Char)
    (rest : List NetEvent) :
    receiveLoop acc (.data (b :: bs) :: rest) =
      match loads (acc ++ b :: bs) with
      | some _ => some (.ok (acc ++ b :: bs))
      | Option.none => receiveLoop (acc ++ b :: bs) rest := rfl

theorem receiveLoop_data_nil (acc : List Char) (rest : List NetEvent) :
    receiveLoop acc (.data [] :: rest) =
      if acc.isEmpty then
        some (.error "Connection closed before receiving any data")
      else some (rfrTail acc) := rfl

theorem accumLoop_complete (v : Json) (hnum : Json.isNumB v = false) :
    ∀ chunks buffer, buffer ++ chunks.flatten = encodeValue v →
      (∀ c ∈ chunks, c ≠ []) → chunks ≠ [] →
      accumLoop buffer chunks = some v := by
  intro chunks
  induction chunks with
  | nil =>
    intro buffer _ _ hne
    exact absurd rfl hne
  | cons c rest ih =>
    intro buffer hfull hall _
    have hc : c ≠ [] := hall c (by simp)
    have hne' : ¬(c.isEmpty = true) := by
      cases c with
      | nil => exact absurd rfl hc
      | cons a t => exact fun h => Bool.noConfusion h
    rw [accumLoop_cons, if_neg hne']
    cases rest with
    | nil =>
      have hbc : buffer ++ c = encodeValue v := by
        have h1 : buffer ++ (c ++ []) = encodeValue v := hfull
        rwa [List.append_nil] at h1
      simp only [hbc, loads_encode]
    | cons c2 rest2 =>
      have hc2 : c2 ≠ [] := hall c2 (by simp)
      have hqne : (c2 :: rest2).flatten ≠ [] := fun h0 =>
        hc2 (List.append_eq_nil.mp h0).1
      have hpre : encodeValue v = (buffer ++ c) ++ (c2 :: rest2).flatten := by
        rw [← hfull]
        exact (List.append_assoc buffer c _).symm
      have hcut := loads_cut v (buffer ++ c) (c2 :: rest2).flatten hnum hpre hqne
      simp only [hcut]
      exact ih (buffer ++ c)
        (by rw [← hfull]; exact List.append_assoc buffer c _)
        (fun d hd => hall d (by simp [hd])) (by simp)

theorem receiveLoop_complete (v : Json) (hnum : Json.isNumB v = false) :
    ∀ chunks acc, acc ++ chunks.flatten = encodeValue v →
      (∀ c ∈ chunks, c ≠ []) → chunks ≠ [] →
      receiveLoop acc (chunks.map NetEvent.data) =
        some (.ok (encodeValue v)) := by
  intro chunks
  induction chunks with
  | nil =>
    intro acc _ _ hne
    exact absurd rfl hne
  | cons c rest ih =>
    intro acc hfull hall _
    have hc : c ≠ [] := hall c (by simp)
    rcases c with _ | ⟨b, bs⟩
    · exact absurd rfl hc
    rw [show ((b :: bs) :: rest).map NetEvent.data =
      .data (b :: bs) :: rest.map NetEvent.data from rfl]
    rw [receiveLoop_data]
    cases rest with
    | nil =>
      have hbc : acc ++ b :: bs = encodeValue v := by
        have h1 : acc ++ (b :: bs ++ []) = encodeValue v := hfull
        rwa [List.append_nil] at h1
      simp only [hbc, loads_encode]
    | cons c2 rest2 =>
      have hc2 : c2 ≠ [] := hall c2 (by simp)
      have hqne : (c2 :: rest2).flatten ≠ [] := fun h0 =>
        hc2 (List.append_eq_nil.mp h0).1
      have hpre : encodeValue v = (acc ++ b :: bs) ++ (c2 :: rest2).flatten := by
        rw [← hfull]
        exact (List.append_assoc acc (b :: bs) _).symm
      have hcut := loads_cut v (acc ++ b :: bs) (c2 :: rest2).flatten hnum hpre hqne
      simp only [hcut]
      exact ih (acc ++ b :: bs)
        (by rw [← hfull]; exact List.append_assoc acc (b :: bs) _)
        (fun d hd => hall d (by simp [hd])) (by simp)

/-- C1: framing round trip under arbitrary chunking.  For every Command
mapping (JSON object `ms`), `json.loads` of `json.dumps` of the object
returns the object; and for every way of splitting the encoded bytes into
nonempty chunks delivered one at a time, the listener-side accumulator
loop of `_handle_client` decodes exactly the original object, and the
client-side `receive_full_response` loop returns exactly the full encoded
byte string (whose decode is the original object). -/
theorem framing_roundtrip_chunked (ms : List (List Char × Json))
    (chunks : List (List Char))
    (hjoin : chunks.flatten = encodeValue (.obj ms))
    (hne : chunks ≠ []) (hchunks : ∀ c ∈ chunks, c ≠ []) :
    loads (encodeValue (.obj ms)) = some (.obj ms) ∧
    accumLoop [] chunks = some (.obj ms) ∧
    receiveFullResponse (chunks.map NetEvent.data) =
      some (.ok (encodeValue (.obj ms))) := by
  refine ⟨loads_encode _, ?_, ?_⟩
  · exact accumLoop_complete (.obj ms) rfl chunks []
      (by simpa using hjoin) hchunks hne
  · exact receiveLoop_complete (.obj ms) rfl chunks []
      (by simpa using hjoin) hchunks hne

theorem framing_roundtrip_chunked_witness :
    loads (encodeValue (.obj [(['t', 'y', 'p', 'e'], .str ['p', 'i', 'n', 'g']),
        (['p', 'a', 'r', 'a', 'm', 's'], .obj [])])) =
      some (.obj [(['t', 'y', 'p', 'e'], .str ['p', 'i', 'n', 'g']),
        (['p', 'a', 'r', 'a', 'm', 's'], .obj [])]) ∧
    accumLoop []
        ((encodeValue (.obj [(['t', 'y', 'p', 'e'], .str ['p', 'i', 'n', 'g']),
          (['p', 'a', 'r', 'a', 'm', 's'], .obj [])])).map fun c => [c]) =
      some (.obj [(['t', 'y', 'p', 'e'], .str ['p', 'i', 'n', 'g']),
        (['p', 'a', 'r', 'a', 'm', 's'], .obj [])]) ∧
    receiveFullResponse
        (((encodeValue (.obj [(['t', 'y', 'p', 'e'], .str ['p', 'i', 'n', 'g']),
          (['p', 'a', 'r', 'a', 'm', 's'], .obj [])])).map fun c => [c]).map
          NetEvent.data) =
      some (.ok (encodeValue
        (.obj [(['t', 'y', 'p', 'e'], .str ['p', 'i', 'n', 'g']),
          (['p', 'a', 'r', 'a', 'm', 's'], .obj [])]))) :=
  framing_roundtrip_chunked
    [(['t', 'y', 'p', 'e'], .str ['p', 'i', 'n', 'g']),
      (['p', 'a', 'r', 'a', 'm', 's'], .obj [])]
    ((encodeValue (.obj [(['t', 'y', 'p', 'e'], .str ['p', 'i', 'n', 'g']),
      (['p', 'a', 'r', 'a', 'm', 's'], .obj [])])).map fun c => [c])
    (by rfl) (by decide) (by decide)

/-- C5: a zero-byte read is a hard failure.  In `receive_full_response`,
whenever `recv` returns zero bytes before a complete response has parsed,
the operation immediately fails: with an empty accumulator it raises
"Connection closed before receiving any data", and with bytes already
accumulated it breaks to the tail and raises "Incomplete JSON response
received" — it never waits for more data. -/
theorem zero_read_hard_failure (acc : List Char) (events : List NetEvent)
    (hnoparse : loads acc = Option.none) :
    receiveLoop acc (.data [] :: events) =
      some (.error (if acc.isEmpty then
        "Connection closed before receiving any data"
      else "Incomplete JSON response received")) := by
  rw [receiveLoop_data_nil]
  cases acc with
  | nil => rfl
  | cons a t => simp [rfrTail, hnoparse]

theorem zero_read_hard_failure_witness :
    loads ['{'] = Option.none ∧
    receiveLoop ['{'] [.data []] =
      some (.error "Incomplete JSON response received") :=
  ⟨rfl, zero_read_hard_failure ['{'] [] rfl⟩

end BlenderForge
